import Mathlib

/-!
# Verification of the Notepad rendering pipeline

A shallow embedding of the rendering pipeline of the notepad application
(`src/core.js` together with the preview update in `src/app.js`):

* `Security.escapeHTML`   — the Escaper (`SecurityManager.escapeHTML`), which the
  source implements with `div.textContent = text; return div.innerHTML`.  The
  browser behaviour is embedded following the WHATWG HTML fragment
  serialization of a text node (`&` → `&amp;`, U+00A0 → `&nbsp;`,
  `<` → `&lt;`, `>` → `&gt;`; all other characters, including quotes, are
  emitted unchanged).
* `Markdown.parse`        — the line-indexed block scanner (`MarkdownParser.parse`)
  and the ordered inline substitution pass (`MarkdownParser._inline`, embedded
  here as `Markdown.inlineFmt`).  Each JavaScript regular-expression `replace`
  is embedded as a left-to-right scan that at every position attempts the
  anchored match exactly as the backtracking regex engine would.
* `Security.sanitizeHTML` — the Sanitizer (`SecurityManager.sanitizeHTML`):
  parse the fragment into an element tree, remove the deny-listed elements,
  strip `on*` attributes and `href` attributes matching `/^javascript:/i`,
  and serialize back.  The host-provided HTML parser/serializer used through
  `temp.innerHTML` is embedded as a character-level tokenizer state machine
  plus a stack tree-builder, following the WHATWG parsing/serialization
  algorithms restricted to the features the pipeline can exercise.
* `render`                — `Security.sanitizeHTML (Markdown.parse text)`, the
  composition performed by `NotepadApp._updatePreview` in `src/app.js`.

All definitions are computable and structurally recursive (loops that consume
a variable amount of input use an explicit fuel bounded by the input length,
mirroring the index-based scan of the source), so concrete runs reduce inside
the kernel.
-/

-- ============================================================
-- Character helpers
-- ============================================================

/-- The non-breaking-space character (U+00A0). -/
def nbspChar : Char := Char.ofNat 160

/-- Whitespace as recognised by JavaScript `String.prototype.trim`. -/
def isJsWs (c : Char) : Bool :=
  c = ' ' || c = '\t' || c = '\n' || c = '\r' || c = '\x0b' || c = '\x0c' || c = nbspChar

/-- ASCII whitespace as used by the HTML tokenizer. -/
def isHtmlWs (c : Char) : Bool :=
  c = ' ' || c = '\t' || c = '\n' || c = '\r' || c = '\x0c'

/-- ASCII lower-casing, as the HTML tokenizer applies to tag and attribute
names (`A`–`Z` only; every other character is left unchanged). -/
def lowerChar (c : Char) : Char :=
  if c = 'A' then 'a' else if c = 'B' then 'b' else if c = 'C' then 'c'
  else if c = 'D' then 'd' else if c = 'E' then 'e' else if c = 'F' then 'f'
  else if c = 'G' then 'g' else if c = 'H' then 'h' else if c = 'I' then 'i'
  else if c = 'J' then 'j' else if c = 'K' then 'k' else if c = 'L' then 'l'
  else if c = 'M' then 'm' else if c = 'N' then 'n' else if c = 'O' then 'o'
  else if c = 'P' then 'p' else if c = 'Q' then 'q' else if c = 'R' then 'r'
  else if c = 'S' then 's' else if c = 'T' then 't' else if c = 'U' then 'u'
  else if c = 'V' then 'v' else if c = 'W' then 'w' else if c = 'X' then 'x'
  else if c = 'Y' then 'y' else if c = 'Z' then 'z' else c

-- ============================================================
-- Security.escapeHTML  (src/core.js lines 163-168)
-- ============================================================

namespace Security

/-- Text-node escaping of a single character, per the WHATWG fragment
serialization algorithm that the browser applies when `escapeHTML` reads
back `div.innerHTML` after setting `div.textContent`. -/
def escChar (c : Char) : List Char :=
  if c = '&' then "&amp;".data
  else if c = nbspChar then "&nbsp;".data
  else if c = '<' then "&lt;".data
  else if c = '>' then "&gt;".data
  else [c]

/-- `escapeHTML` on the character list underlying the string. -/
def escapeList : List Char → List Char
  | [] => []
  | c :: cs => escChar c ++ escapeList cs

/-- `SecurityManager.escapeHTML` (src/core.js 163-168): the browser's
text-node round-trip `div.textContent = text; return div.innerHTML`. -/
def escapeHTML (s : String) : String := ⟨escapeList s.data⟩

end Security

/-- Replace every occurrence of the character `c` by the list `r`
(the semantics of a JavaScript global regex replace whose pattern is the
single literal character `c`). -/
def replaceCharBy (c : Char) (r : List Char) : List Char → List Char
  | [] => []
  | x :: xs => (if x = c then r else [x]) ++ replaceCharBy c r xs

/-- The Escaper as the specification words it (spec §4.1): replaces each of
`&, <, >, ", '` by its entity equivalent, in that order.  Written from the
spec, for comparison against `Security.escapeHTML`. -/
def specEscapeFive (cs : List Char) : List Char :=
  replaceCharBy '\'' "&#39;".data
    (replaceCharBy '"' "&quot;".data
      (replaceCharBy '>' "&gt;".data
        (replaceCharBy '<' "&lt;".data
          (replaceCharBy '&' "&amp;".data cs))))

/-- The amended escaping contract: replaces `&`, U+00A0, `<`, `>` by their
entities and leaves every other character (in particular `"` and `'`)
unchanged. -/
def specEscapeAmended (cs : List Char) : List Char :=
  replaceCharBy '>' "&gt;".data
    (replaceCharBy '<' "&lt;".data
      (replaceCharBy nbspChar "&nbsp;".data
        (replaceCharBy '&' "&amp;".data cs)))

-- ============================================================
-- Markdown inline formatting  (MarkdownParser._inline, src/core.js 528-553)
-- ============================================================

namespace Markdown

/-- Anchored match of the lazy group in `/xx(.+?)xx/`-style patterns: the
least nonempty prefix (containing no newline, since `.` does not match one)
that is immediately followed by `close`; returns the group and the text after
the closing delimiter. -/
def lazyUpto (close : List Char) : List Char → Option (List Char × List Char)
  | [] => none
  | c :: cs =>
    if c = '\n' then none
    else if close.isPrefixOf cs then some ([c], cs.drop close.length)
    else
      match lazyUpto close cs with
      | some (content, rest) => some (c :: content, rest)
      | none => none

/-- Build the replacement for a two-character lazy delimiter pattern. -/
def lazyRepl (tagOpenStr tagCloseStr close : List Char) (rest : List Char) :
    Option (List Char × List Char) :=
  match lazyUpto close rest with
  | some (content, r) => some (tagOpenStr ++ content ++ tagCloseStr, r)
  | none => none

/-- Anchored match for `` /`([^`]+)`/ `` (inline code span). -/
def tmCode : List Char → Option (List Char × List Char)
  | [] => none
  | c :: rest =>
    if c = '`' then
      let content := rest.takeWhile (· ≠ '`')
      if content.isEmpty then none
      else
        match rest.dropWhile (· ≠ '`') with
        | [] => none
        | _ :: r3 => some ("<code>".data ++ content ++ "</code>".data, r3)
    else none

/-- Anchored match for `/\*\*(.+?)\*\*/` (bold with asterisks). -/
def tmBold1 : List Char → Option (List Char × List Char)
  | [] => none
  | c :: rest =>
    if c = '*' then
      match rest with
      | [] => none
      | c2 :: rest2 =>
        if c2 = '*' then lazyRepl "<strong>".data "</strong>".data "**".data rest2
        else none
    else none

/-- Anchored match for `/__(.+?)__/` (bold with underscores). -/
def tmBold2 : List Char → Option (List Char × List Char)
  | [] => none
  | c :: rest =>
    if c = '_' then
      match rest with
      | [] => none
      | c2 :: rest2 =>
        if c2 = '_' then lazyRepl "<strong>".data "</strong>".data "__".data rest2
        else none
    else none

/-- Anchored match for `/\*([^*]+)\*/` (italics with asterisks). -/
def tmEm1 : List Char → Option (List Char × List Char)
  | [] => none
  | c :: rest =>
    if c = '*' then
      let content := rest.takeWhile (· ≠ '*')
      if content.isEmpty then none
      else
        match rest.dropWhile (· ≠ '*') with
        | [] => none
        | _ :: r3 => some ("<em>".data ++ content ++ "</em>".data, r3)
    else none

/-- Anchored match for `/_([^_]+)_/` (italics with underscores). -/
def tmEm2 : List Char → Option (List Char × List Char)
  | [] => none
  | c :: rest =>
    if c = '_' then
      let content := rest.takeWhile (· ≠ '_')
      if content.isEmpty then none
      else
        match rest.dropWhile (· ≠ '_') with
        | [] => none
        | _ :: r3 => some ("<em>".data ++ content ++ "</em>".data, r3)
    else none

/-- Anchored match for `/==(.+?)==/` (highlight). -/
def tmMark : List Char → Option (List Char × List Char)
  | [] => none
  | c :: rest =>
    if c = '=' then
      match rest with
      | [] => none
      | c2 :: rest2 =>
        if c2 = '=' then lazyRepl "<mark>".data "</mark>".data "==".data rest2
        else none
    else none

/-- Anchored match for `/~~(.+?)~~/` (strikethrough). -/
def tmDel : List Char → Option (List Char × List Char)
  | [] => none
  | c :: rest =>
    if c = '~' then
      match rest with
      | [] => none
      | c2 :: rest2 =>
        if c2 = '~' then lazyRepl "<del>".data "</del>".data "~~".data rest2
        else none
    else none

/-- The anchor markup emitted for an accepted link. -/
def anchorFor (url lbl : List Char) : List Char :=
  "<a href=\"".data ++ url ++ "\" target=\"_blank\" rel=\"noopener noreferrer\">".data
    ++ lbl ++ "</a>".data

/-- After `[label](` and an accepted scheme prefix, match `[^)]+\)` and build
the replacement. -/
def tmLinkTail (pre lbl after : List Char) : Option (List Char × List Char) :=
  if (after.takeWhile (· ≠ ')')).isEmpty then none
  else
    match after.dropWhile (· ≠ ')') with
    | [] => none
    | _ :: r4 => some (anchorFor (pre ++ after.takeWhile (· ≠ ')')) lbl, r4)

/-- Anchored match for `/\[([^\]]+)\]\((https?:\/\/[^)]+)\)/` (link).  The
scheme alternatives are the literal, case-sensitive `http://` and
`https://`. -/
def tmLink : List Char → Option (List Char × List Char)
  | [] => none
  | c :: rest =>
    if c = '[' then
      let lbl := rest.takeWhile (· ≠ ']')
      if lbl.isEmpty then none
      else
        match rest.dropWhile (· ≠ ']') with
        | _ :: '(' :: r2 =>
          if "https://".data.isPrefixOf r2 then tmLinkTail "https://".data lbl (r2.drop 8)
          else if "http://".data.isPrefixOf r2 then tmLinkTail "http://".data lbl (r2.drop 7)
          else none
        | _ => none
    else none

/-- One global-replace pass (`String.prototype.replace` with a `/g` regex):
scan left to right; at each position try the anchored match; on success emit
the replacement and continue after the match, otherwise keep the character.
The fuel only bounds the recursion and is always instantiated with the input
length, which each step strictly decreases. -/
def replGo (tm : List Char → Option (List Char × List Char)) :
    Nat → List Char → List Char
  | 0, cs => cs
  | _ + 1, [] => []
  | fuel + 1, c :: cs =>
    match tm (c :: cs) with
    | some (r, rest) => r ++ replGo tm fuel rest
    | none => c :: replGo tm fuel cs

/-- A whole global-replace pass over a string. -/
def runPass (tm : List Char → Option (List Char × List Char)) (cs : List Char) :
    List Char :=
  replGo tm cs.length cs

/-- The ordered inline substitutions of `MarkdownParser._inline`
(src/core.js 528-553) after the initial escape: code span, bold (`**`, `__`),
italics (`*`, `_`), highlight, strikethrough, link. -/
def inlineList (cs : List Char) : List Char :=
  runPass tmLink (runPass tmDel (runPass tmMark (runPass tmEm2 (runPass tmEm1
    (runPass tmBold2 (runPass tmBold1 (runPass tmCode cs)))))))

/-- `MarkdownParser._inline` on a line: escape first, then the substitution
passes. -/
def inlineCore (l : List Char) : List Char :=
  inlineList (Security.escapeList l)

/-- `MarkdownParser._inline` as a string function. -/
def inlineFmt (s : String) : String := ⟨inlineCore s.data⟩

end Markdown

-- ============================================================
-- Markdown block scanner  (MarkdownParser.parse, src/core.js 433-519)
-- ============================================================

namespace Markdown

/-- JavaScript `trimEnd`: drop trailing whitespace. -/
def trimRight : List Char → List Char
  | [] => []
  | c :: cs =>
    match trimRight cs with
    | [] => if isJsWs c then [] else [c]
    | x :: xs => c :: x :: xs

/-- JavaScript `String.prototype.trim`. -/
def trimList (cs : List Char) : List Char :=
  trimRight (cs.dropWhile isJsWs)

/-- `text.split('\n')`. -/
def splitNl : List Char → List (List Char)
  | [] => [[]]
  | c :: cs =>
    match splitNl cs with
    | [] => [[c]]
    | h :: t => if c = '\n' then [] :: h :: t else (c :: h) :: t

/-- `/^---+$/.test(line.trim())`: the trimmed line is three or more hyphens
and nothing else. -/
def hrTest (l : List Char) : Bool :=
  let t := trimList l
  decide (3 ≤ t.length) && t.all (· = '-')

/-- `/^### (.+)/` (and analogously for `##`, `#`). -/
def h3T (l : List Char) : Bool := "### ".data.isPrefixOf l && !(l.drop 4).isEmpty
def h2T (l : List Char) : Bool := "## ".data.isPrefixOf l && !(l.drop 3).isEmpty
def h1T (l : List Char) : Bool := "# ".data.isPrefixOf l && !(l.drop 2).isEmpty

/-- `line.startsWith('> ')`. -/
def isQL (l : List Char) : Bool := "> ".data.isPrefixOf l

/-- `/^[-*] /.test(line)`. -/
def isUL (l : List Char) : Bool :=
  match l with
  | c :: c2 :: _ => (c = '-' || c = '*') && c2 = ' '
  | _ => false

/-- `/^\d+\. /.test(line)`. -/
def isOL (l : List Char) : Bool :=
  !(l.takeWhile Char.isDigit).isEmpty &&
    match l.dropWhile Char.isDigit with
    | c1 :: c2 :: _ => c1 = '.' && c2 = ' '
    | _ => false

/-- `line.startsWith('```')`. -/
def isFence (l : List Char) : Bool := "```".data.isPrefixOf l

/-- The code block emitted for the collected (escaped) fence lines:
`` `<pre><code>${codeLines.join('\n')}</code></pre>` ``. -/
def fenceBlock (ls : List (List Char)) : List Char :=
  "<pre><code>".data ++ List.intercalate ['\n'] (ls.map Security.escapeList)
    ++ "</code></pre>".data

/-- `` `<blockquote>${quoteLines.join('<br>')}</blockquote>` `` where each
collected line contributes `this._inline(line.slice(2))`. -/
def quoteBlock (qs : List (List Char)) : List Char :=
  "<blockquote>".data
    ++ List.intercalate "<br>".data (qs.map (fun l => inlineCore (l.drop 2)))
    ++ "</blockquote>".data

/-- `` `<ul>${items.join('')}</ul>` `` with `<li>${this._inline(line.slice(2))}</li>`
per line. -/
def ulBlock (items : List (List Char)) : List Char :=
  "<ul>".data
    ++ (items.map (fun l => "<li>".data ++ inlineCore (l.drop 2) ++ "</li>".data)).flatten
    ++ "</ul>".data

/-- `` `<ol>${items.join('')}</ol>` `` with the `/^\d+\. /` prefix stripped from
each line. -/
def olBlock (items : List (List Char)) : List Char :=
  "<ol>".data
    ++ (items.map (fun l =>
          "<li>".data ++ inlineCore ((l.dropWhile Char.isDigit).drop 2) ++ "</li>".data)).flatten
    ++ "</ol>".data

/-- One iteration of the `while (i < lines.length)` loop of
`MarkdownParser.parse` (src/core.js 440-516) at the current line `l` with the
following lines `ls`: the branch conditions in source order, producing the
emitted block and the lines remaining after the branch advances `i`. -/
def scanStep (l : List Char) (ls : List (List Char)) :
    List Char × List (List Char) :=
  if hrTest l then ("<hr>".data, ls)
  else if isFence l then
    (fenceBlock (ls.takeWhile (fun x => !isFence x)),
      (ls.dropWhile (fun x => !isFence x)).drop 1)
  else if h3T l then ("<h3>".data ++ inlineCore (l.drop 4) ++ "</h3>".data, ls)
  else if h2T l then ("<h2>".data ++ inlineCore (l.drop 3) ++ "</h2>".data, ls)
  else if h1T l then ("<h1>".data ++ inlineCore (l.drop 2) ++ "</h1>".data, ls)
  else if isQL l then (quoteBlock ((l :: ls).takeWhile isQL), (l :: ls).dropWhile isQL)
  else if isUL l then (ulBlock ((l :: ls).takeWhile isUL), (l :: ls).dropWhile isUL)
  else if isOL l then (olBlock ((l :: ls).takeWhile isOL), (l :: ls).dropWhile isOL)
  else if (trimList l).isEmpty then ("<br>".data, ls)
  else ("<p>".data ++ inlineCore l ++ "</p>".data, ls)

/-- The whole scan, one fuel tick per produced block.  Every branch consumes
at least one line, so a fuel of `lines.length` always suffices; the `0`
branch is never reached from `parseLines`. -/
def parseGo : Nat → List (List Char) → List (List Char)
  | 0, _ => []
  | _ + 1, [] => []
  | fuel + 1, l :: ls =>
    (scanStep l ls).1 :: parseGo fuel (scanStep l ls).2

/-- The block scan over a list of lines, fuelled by the line count. -/
def parseLines (lines : List (List Char)) : List (List Char) :=
  parseGo lines.length lines

/-- `MarkdownParser.parse` (src/core.js 433-519) on an actual string input:
the `!text` guard sends the empty string to `''`; otherwise split into lines,
scan, and `output.join('')`. -/
def parse (s : String) : String :=
  if s = "" then "" else ⟨(parseLines (splitNl s.data)).flatten⟩

end Markdown

-- ============================================================
-- The host HTML parse / serialize pair used by the Sanitizer
-- ============================================================

/-- An attribute: name and value (both already entity-decoded). -/
abbrev HAttr := List Char × List Char

/-- Tokens of the HTML tokenizer: character data, a start tag with its
attributes, an end tag. -/
inductive Tok where
  | chr (c : Char)
  | tagO (t : List Char) (attrs : List HAttr)
  | tagC (t : List Char)
  deriving DecidableEq

/-- Map a character run to character tokens. -/
def charToks (l : List Char) : List Tok := l.map Tok.chr

/-- The named/numeric character references the serializer can emit (plus the
corresponding decode used while parsing). -/
def decodeEnt (acc : List Char) : Option Char :=
  if acc = "amp".data then some '&'
  else if acc = "lt".data then some '<'
  else if acc = "gt".data then some '>'
  else if acc = "quot".data then some '"'
  else if acc = "#39".data then some '\''
  else if acc = "nbsp".data then some nbspChar
  else none

/-- Setting an attribute: the HTML parser keeps the first occurrence of a
duplicated attribute name and drops later ones. -/
def pushAttr (attrs : List HAttr) (n v : List Char) : List HAttr :=
  if attrs.any (fun a => a.1 == n) then attrs else attrs ++ [(n, v)]

/-- States of the tokenizer state machine (one character consumed per step),
modelling the WHATWG HTML tokenizer restricted to data, character-reference,
tag-open/close and attribute states. -/
inductive TState where
  | data
  | charref (acc : List Char)
  | tagOpen
  | endTag (acc : List Char)
  | tagName (t : List Char)
  | beforeAttr (t : List Char) (attrs : List HAttr)
  | attrName (t : List Char) (attrs : List HAttr) (n : List Char)
  | afterAttrName (t : List Char) (attrs : List HAttr) (n : List Char)
  | beforeValue (t : List Char) (attrs : List HAttr) (n : List Char)
  | valueDq (t : List Char) (attrs : List HAttr) (n v : List Char)
  | valueSq (t : List Char) (attrs : List HAttr) (n v : List Char)
  | valueUnq (t : List Char) (attrs : List HAttr) (n v : List Char)
  | attrRef (t : List Char) (attrs : List HAttr) (n v acc : List Char)
  deriving DecidableEq

/-- One step of the tokenizer. -/
def step : TState → Char → TState × List Tok
  | .data, c =>
    if c = '<' then (.tagOpen, [])
    else if c = '&' then (.charref [], [])
    else (.data, [.chr c])
  | .charref acc, c =>
    if c = ';' then
      match decodeEnt acc with
      | some d => (.data, [.chr d])
      | none => (.data, charToks ('&' :: acc ++ [';']))
    else if c.isAlphanum || c = '#' then (.charref (acc ++ [c]), [])
    else if c = '&' then (.charref [], charToks ('&' :: acc))
    else if c = '<' then (.tagOpen, charToks ('&' :: acc))
    else (.data, charToks ('&' :: acc) ++ [.chr c])
  | .tagOpen, c =>
    if c = '/' then (.endTag [], [])
    else if c.isAlpha then (.tagName [lowerChar c], [])
    else if c = '<' then (.tagOpen, [.chr '<'])
    else if c = '&' then (.charref [], [.chr '<'])
    else (.data, [.chr '<', .chr c])
  | .endTag acc, c =>
    if c = '>' then (.data, if acc.isEmpty then [] else [.tagC acc])
    else (.endTag (acc ++ [lowerChar c]), [])
  | .tagName t, c =>
    if isHtmlWs c then (.beforeAttr t [], [])
    else if c = '/' then (.beforeAttr t [], [])
    else if c = '>' then (.data, [.tagO t []])
    else (.tagName (t ++ [lowerChar c]), [])
  | .beforeAttr t attrs, c =>
    if isHtmlWs c || c = '/' then (.beforeAttr t attrs, [])
    else if c = '>' then (.data, [.tagO t attrs])
    else (.attrName t attrs [lowerChar c], [])
  | .attrName t attrs n, c =>
    if c = '=' then (.beforeValue t attrs n, [])
    else if isHtmlWs c then (.afterAttrName t attrs n, [])
    else if c = '>' then (.data, [.tagO t (pushAttr attrs n [])])
    else if c = '/' then (.beforeAttr t (pushAttr attrs n []), [])
    else (.attrName t attrs (n ++ [lowerChar c]), [])
  | .afterAttrName t attrs n, c =>
    if isHtmlWs c then (.afterAttrName t attrs n, [])
    else if c = '=' then (.beforeValue t attrs n, [])
    else if c = '>' then (.data, [.tagO t (pushAttr attrs n [])])
    else if c = '/' then (.beforeAttr t (pushAttr attrs n []), [])
    else (.attrName t (pushAttr attrs n []) [lowerChar c], [])
  | .beforeValue t attrs n, c =>
    if isHtmlWs c then (.beforeValue t attrs n, [])
    else if c = '"' then (.valueDq t attrs n [], [])
    else if c = '\'' then (.valueSq t attrs n [], [])
    else if c = '>' then (.data, [.tagO t (pushAttr attrs n [])])
    else (.valueUnq t attrs n [c], [])
  | .valueDq t attrs n v, c =>
    if c = '"' then (.beforeAttr t (pushAttr attrs n v), [])
    else if c = '&' then (.attrRef t attrs n v [], [])
    else (.valueDq t attrs n (v ++ [c]), [])
  | .valueSq t attrs n v, c =>
    if c = '\'' then (.beforeAttr t (pushAttr attrs n v), [])
    else (.valueSq t attrs n (v ++ [c]), [])
  | .valueUnq t attrs n v, c =>
    if isHtmlWs c then (.beforeAttr t (pushAttr attrs n v), [])
    else if c = '>' then (.data, [.tagO t (pushAttr attrs n v)])
    else (.valueUnq t attrs n (v ++ [c]), [])
  | .attrRef t attrs n v acc, c =>
    if c = ';' then
      match decodeEnt acc with
      | some d => (.valueDq t attrs n (v ++ [d]), [])
      | none => (.valueDq t attrs n (v ++ '&' :: acc ++ [';']), [])
    else if c.isAlphanum || c = '#' then (.attrRef t attrs n v (acc ++ [c]), [])
    else if c = '"' then (.beforeAttr t (pushAttr attrs n (v ++ '&' :: acc)), [])
    else if c = '&' then (.attrRef t attrs n (v ++ '&' :: acc) [], [])
    else (.valueDq t attrs n (v ++ '&' :: acc ++ [c]), [])

/-- Run the tokenizer from a state over the input. -/
def runT : TState → List Char → List Tok × TState
  | s, [] => ([], s)
  | s, c :: cs =>
    let p := step s c
    let q := runT p.1 cs
    (p.2 ++ q.1, q.2)

/-- An element forest.  `textC s rest` is a text node followed by its right
siblings; `elemC tag attrs children rest` likewise.  (A flat encoding of the
DOM child lists that keeps every recursion structural.) -/
inductive HForest where
  | nil
  | textC (s : List Char) (rest : HForest)
  | elemC (tag : List Char) (attrs : List HAttr) (children rest : HForest)
  deriving DecidableEq

/-- The HTML void elements (no end tag, never any children). -/
def voidTags : List (List Char) :=
  ["area", "base", "br", "col", "embed", "hr", "img", "input", "link", "meta",
    "param", "source", "track", "wbr"].map String.data

def isVoidTag (t : List Char) : Bool := voidTags.any (fun x => x == t)

/-- Reverse a forest of siblings (children accumulate in reverse while
building). -/
def revF : HForest → HForest → HForest
  | .nil, acc => acc
  | .textC s r, acc => revF r (.textC s acc)
  | .elemC t a ch r, acc => revF r (.elemC t a ch acc)

/-- Append a text run to a reversed child list, merging with an adjacent text
node exactly as the DOM does when consecutive character tokens are
inserted. -/
def pushTextRev (s : List Char) : HForest → HForest
  | .textC s0 r => .textC (s0 ++ s) r
  | f => .textC s f

/-- An open element on the tree-builder stack: its tag, attributes and
children collected so far (reversed). -/
structure BFrame where
  tag : List Char
  attrs : List HAttr
  rev : HForest
  deriving DecidableEq

/-- Finish the top frame `f` and insert it as an element into its parent
frame `g`. -/
def mergeInto (f g : BFrame) : BFrame :=
  { g with rev := .elemC f.tag f.attrs (revF f.rev .nil) g.rev }

/-- Does some open element on the stack carry this tag? -/
def hasTag (t : List Char) : List BFrame → Bool
  | [] => false
  | f :: fs => f.tag == t || hasTag t fs

/-- Collapse `acc`, then each frame of the list in turn, finally into `m`. -/
def chainIntoAux (acc : BFrame) : List BFrame → BFrame → BFrame
  | [], m => mergeInto acc m
  | g :: rest, m => chainIntoAux (mergeInto acc g) rest m

/-- Handle an end-tag token: if a matching open element exists, pop (and
finish) every frame above it and then the matching frame itself; otherwise
ignore the token. -/
def applyClose (t : List Char) (frames : List BFrame) : List BFrame :=
  if hasTag t frames then
    match frames.dropWhile (fun f => !(f.tag == t)),
        frames.takeWhile (fun f => !(f.tag == t)) with
    | m :: parent :: rest2, [] => mergeInto m parent :: rest2
    | m :: parent :: rest2, f :: pre => mergeInto (chainIntoAux f pre m) parent :: rest2
    | _, _ => frames
  else frames

/-- Process one token in the tree builder. -/
def applyTok (frames : List BFrame) : Tok → List BFrame
  | .chr c =>
    match frames with
    | f :: fs => { f with rev := pushTextRev [c] f.rev } :: fs
    | [] => []
  | .tagO t attrs =>
    if isVoidTag t then
      match frames with
      | f :: fs => { f with rev := .elemC t attrs .nil f.rev } :: fs
      | [] => []
    else ⟨t, attrs, .nil⟩ :: frames
  | .tagC t => applyClose t frames

/-- End of input: every still-open element is finished into its parent; the
sentinel's children are the resulting forest. -/
def finishAux (acc : BFrame) : List BFrame → HForest
  | [] => revF acc.rev .nil
  | g :: fs => finishAux (mergeInto acc g) fs

def finishFrames : List BFrame → HForest
  | [] => .nil
  | f :: fs => finishAux f fs

/-- The sentinel frame standing for the fragment root (`temp`); its tag is
empty and can never match an end tag. -/
def rootFrame : BFrame := ⟨[], [], .nil⟩

/-- Build the element forest from a token stream. -/
def buildToks (toks : List Tok) : HForest :=
  finishFrames (toks.foldl applyTok [rootFrame])

/-- Modelled from the spec: the host-provided HTML fragment parser the
Sanitizer invokes through `temp.innerHTML = html` (spec §4.4 "parses the
fragment into an element tree", §9 "relies on a host-provided markup
parser/tree").  The browser's parser is not part of `src/`; it is embedded
as the tokenizer state machine above plus the standard stack tree builder,
restricted to the constructs this pipeline can produce (no raw-text modes,
no foreign content, no implied-tag insertion). -/
def parseHTMLList (cs : List Char) : HForest :=
  buildToks (runT .data cs).1

/-- Attribute-value escaping of the fragment serializer (`&` → `&amp;`,
U+00A0 → `&nbsp;`, `"` → `&quot;`). -/
def escAttrChar (c : Char) : List Char :=
  if c = '&' then "&amp;".data
  else if c = nbspChar then "&nbsp;".data
  else if c = '"' then "&quot;".data
  else [c]

def escAttrList : List Char → List Char
  | [] => []
  | c :: cs => escAttrChar c ++ escAttrList cs

def serAttrs : List HAttr → List Char
  | [] => []
  | (n, v) :: rest => ' ' :: (n ++ '=' :: '"' :: escAttrList v ++ ['"']) ++ serAttrs rest

/-- The fragment serializer read back through `temp.innerHTML`: text nodes
escaped as in `Security.escapeList`, attributes double-quoted with
`escAttrList`, void elements without end tag. -/
def serF : HForest → List Char
  | .nil => []
  | .textC s rest => Security.escapeList s ++ serF rest
  | .elemC t a ch rest =>
    '<' :: (t ++ serAttrs a ++ ['>'])
      ++ (if isVoidTag t then [] else serF ch ++ ('<' :: '/' :: t ++ ['>']))
      ++ serF rest

-- ============================================================
-- Security.sanitizeHTML  (src/core.js lines 177-199)
-- ============================================================

/-- The deny-list of `sanitizeHTML`'s `querySelectorAll`. -/
def denyTags : List (List Char) :=
  ["script", "style", "iframe", "object", "embed", "form", "input", "button",
    "link", "meta"].map String.data

def isDenied (t : List Char) : Bool := denyTags.any (fun x => x == t)

/-- `attr.name.startsWith('on')`. -/
def startsWithOn (n : List Char) : Bool := "on".data.isPrefixOf n

/-- `/^javascript:/i.test(value)`: no trimming, case-insensitive literal
prefix. -/
def jsHrefVal (v : List Char) : Bool :=
  "javascript:".data.isPrefixOf (v.map lowerChar)

/-- The attribute-removal condition of src/core.js line 192:
`attr.name.startsWith('on') || attr.name === 'href' && /^javascript:/i.test(attr.value)`. -/
def attrBad (n v : List Char) : Bool :=
  startsWithOn n || (n == "href".data && jsHrefVal v)

def filterAttrs (a : List HAttr) : List HAttr :=
  a.filter (fun p => !attrBad p.1 p.2)

/-- The tree transformation of `sanitizeHTML`: remove every deny-listed
element together with its subtree (`dangerous.forEach(el => el.remove())`),
then drop the bad attributes of every remaining element. -/
def sanF : HForest → HForest
  | .nil => .nil
  | .textC s rest => .textC s (sanF rest)
  | .elemC t a ch rest =>
    if isDenied t then sanF rest
    else .elemC t (filterAttrs a) (sanF ch) (sanF rest)

/-- `SecurityManager.sanitizeHTML` (src/core.js 177-199): parse through the
host DOM, remove dangerous elements and attributes, read back
`temp.innerHTML`. -/
def Security.sanitizeHTML (s : String) : String :=
  ⟨serF (sanF (parseHTMLList s.data))⟩

/-- `render(text)`: the pipeline `NotepadApp._updatePreview` runs on every
edit (src/app.js 442-447): `Security.sanitizeHTML(Markdown.parse(content))`. -/
def render (s : String) : String :=
  Security.sanitizeHTML (Markdown.parse s)

-- ============================================================
-- JavaScript dynamic values (for the `typeof` guards)
-- ============================================================

/-- A JavaScript value as far as the `!text || typeof text !== 'string'`
guards can observe it. -/
inductive JSVal where
  | jsNull
  | jsUndefined
  | jsNum (n : Int)
  | jsBool (b : Bool)
  | jsObject
  | jsStr (s : String)
  deriving DecidableEq

/-- `typeof v === 'string'`. -/
def JSVal.isString : JSVal → Bool
  | .jsStr _ => true
  | _ => false

/-- `MarkdownParser.parse` on an arbitrary JavaScript value: the guard
`if (!text || typeof text !== 'string') return ''` (src/core.js 434).  Among
strings, only `''` is falsy, which `Markdown.parse` already sends to `''`. -/
def Markdown.parseJS : JSVal → String
  | .jsStr s => Markdown.parse s
  | _ => ""

/-- `SecurityManager.sanitizeHTML` on an arbitrary JavaScript value: the
guard `if (typeof html !== 'string') return ''` (src/core.js 178). -/
def Security.sanitizeJS : JSVal → String
  | .jsStr s => Security.sanitizeHTML s
  | _ => ""

-- ============================================================
-- Shared lemmas
-- ============================================================

lemma replaceCharBy_append (c : Char) (r a b : List Char) :
    replaceCharBy c r (a ++ b) = replaceCharBy c r a ++ replaceCharBy c r b := by
  induction a with
  | nil => rfl
  | cons x xs ih => simp [replaceCharBy, ih]

/-- Characters that text-node escaping leaves alone. -/
def isLiteralChar (c : Char) : Bool :=
  !(c = '&' || c = nbspChar || c = '<' || c = '>')

lemma escChar_literal {c : Char} (h : isLiteralChar c = true) :
    Security.escChar c = [c] := by
  unfold isLiteralChar at h
  simp only [Bool.not_eq_true', Bool.or_eq_false_iff, decide_eq_false_iff_not] at h
  simp [Security.escChar, h.1.1.1, h.1.1.2, h.1.2, h.2]

lemma escapeList_literal {cs : List Char} (h : ∀ c ∈ cs, isLiteralChar c = true) :
    Security.escapeList cs = cs := by
  induction cs with
  | nil => rfl
  | cons c cs ih =>
    simp only [Security.escapeList, escChar_literal (h c (by simp)), List.singleton_append]
    rw [ih (fun x hx => h x (by simp [hx]))]

lemma specEscapeAmended_cons (c : Char) (cs : List Char) :
    specEscapeAmended (c :: cs) = Security.escChar c ++ specEscapeAmended cs := by
  unfold specEscapeAmended
  have hsplit : replaceCharBy '&' "&amp;".data (c :: cs)
      = replaceCharBy '&' "&amp;".data [c] ++ replaceCharBy '&' "&amp;".data cs := by
    simpa using replaceCharBy_append '&' "&amp;".data [c] cs
  rw [hsplit, replaceCharBy_append, replaceCharBy_append, replaceCharBy_append]
  congr 1
  by_cases h1 : c = '&'
  · subst h1; decide
  by_cases h2 : c = nbspChar
  · subst h2; decide
  by_cases h3 : c = '<'
  · subst h3; decide
  by_cases h4 : c = '>'
  · subst h4; decide
  · simp [replaceCharBy, Security.escChar, h1, h2, h3, h4]

lemma escapeList_eq_specAmended (cs : List Char) :
    Security.escapeList cs = specEscapeAmended cs := by
  induction cs with
  | nil => rfl
  | cons c cs ih => rw [Security.escapeList, specEscapeAmended_cons, ih]

-- ============================================================
-- Claim C2 (corrected)
-- ============================================================

/-- C2, counterexample: the Escaper of the source does not touch quote
characters.  On the input `"'` the code returns the input unchanged, while
the claimed five-character entity replacement would produce
`&quot;&#39;`. -/
theorem c2_counterexample :
    Security.escapeHTML "\"'" = "\"'" ∧
    specEscapeFive "\"'".data = "&quot;&#39;".data ∧
    ("\"'" : String) ≠ "&quot;&#39;" := by
  refine ⟨by decide, by decide, by decide⟩

/-- C2, amended: `escapeHTML` replaces exactly `&`, U+00A0, `<`, `>` by
their entity equivalents and leaves every other character — in particular
`"` and `'` — unchanged; it is a pure total function of the string. -/
theorem c2_escape_amended (s : String) :
    Security.escapeHTML s = ⟨specEscapeAmended s.data⟩ := by
  unfold Security.escapeHTML
  rw [escapeList_eq_specAmended]

-- ============================================================
-- Claim C3 (code bug)
-- ============================================================

/-- C3: the inline code span does **not** protect its content from the later
rules.  `_inline` on `` `**x**` `` first wraps the span in `<code>` and then
the bold rule rewrites the protected content, producing
`<code><strong>x</strong></code>` instead of leaving the asterisks
literal. -/
theorem c3_code_span_not_protected :
    Markdown.inlineFmt "`**x**`" = "<code><strong>x</strong></code>" := by
  decide

-- ============================================================
-- Claim C10 (confirmed)
-- ============================================================

/-- C10: for every non-string JavaScript value both `parse` and
`sanitizeHTML` return the empty string without failing, and `parse` also
returns the empty string on the empty-string input. -/
theorem c10_nonstring_guard :
    (∀ v : JSVal, v.isString = false →
      Markdown.parseJS v = "" ∧ Security.sanitizeJS v = "") ∧
    Markdown.parseJS (JSVal.jsStr "") = "" := by
  constructor
  · intro v h
    cases v <;> simp_all [JSVal.isString, Markdown.parseJS, Security.sanitizeJS]
  · rfl

/-- C10 witness: the guard at the concrete value `null`. -/
theorem c10_witness :
    Markdown.parseJS JSVal.jsNull = "" ∧ Security.sanitizeJS JSVal.jsNull = "" :=
  c10_nonstring_guard.1 JSVal.jsNull (by decide)

-- ============================================================
-- Claim C6 (corrected)
-- ============================================================

/-- C6, counterexample: the attribute check of the Sanitizer applies only to
`href`, never to `src`.  A `javascript:`-scheme `src` attribute on a
non-deny-listed element survives sanitization unchanged. -/
theorem c6_counterexample :
    Security.sanitizeHTML "<img src=\"javascript:alert(1)\">"
      = "<img src=\"javascript:alert(1)\">" := by
  decide

/-- All attributes of every element (at any depth) pass the
`attrBad`-filter. -/
def forestAttrsClean : HForest → Bool
  | .nil => true
  | .textC _ r => forestAttrsClean r
  | .elemC _ a ch r =>
    a.all (fun p => !attrBad p.1 p.2) && forestAttrsClean ch && forestAttrsClean r

lemma attrsClean_filterAttrs (a : List HAttr) :
    (filterAttrs a).all (fun p => !attrBad p.1 p.2) = true := by
  simp only [List.all_eq_true, filterAttrs]
  intro p hp
  exact (List.mem_filter.mp hp).2

/-- C6, amended: the Sanitizer removes every attribute whose name begins
with `on`, and every `href` attribute whose raw (untrimmed) value begins,
case-insensitively, with `javascript:`; `src` attributes are not examined.
After sanitization no element at any depth retains such an attribute. -/
theorem c6_href_filter (f : HForest) : forestAttrsClean (sanF f) = true := by
  induction f with
  | nil => rfl
  | textC s r ihr => simpa [sanF, forestAttrsClean] using ihr
  | elemC t a ch r ihch ihr =>
    by_cases h : isDenied t = true
    · simpa [sanF, h] using ihr
    · simp only [sanF, Bool.not_eq_true] at h
      simp [sanF, h, forestAttrsClean, attrsClean_filterAttrs, ihch, ihr]

-- ============================================================
-- Claim C4 (corrected): the link rule
-- ============================================================

lemma replGo_nil (tm : List Char → Option (List Char × List Char)) (fuel : Nat) :
    Markdown.replGo tm fuel [] = [] := by
  cases fuel <;> rfl

lemma replGo_id_of_no_trigger (tm : List Char → Option (List Char × List Char))
    (trig : Char) (htm : ∀ c rest, c ≠ trig → tm (c :: rest) = none) :
    ∀ (fuel : Nat) (cs : List Char), (∀ c ∈ cs, c ≠ trig) →
      Markdown.replGo tm fuel cs = cs := by
  intro fuel
  induction fuel with
  | zero => intro cs _; rfl
  | succ n ih =>
    intro cs h
    cases cs with
    | nil => rfl
    | cons c cs' =>
      have hnone := htm c cs' (h c (by simp))
      simp only [Markdown.replGo, hnone]
      rw [ih cs' (fun x hx => h x (by simp [hx]))]

lemma runPass_id_of_no_trigger (tm : List Char → Option (List Char × List Char))
    (trig : Char) (htm : ∀ c rest, c ≠ trig → tm (c :: rest) = none)
    (cs : List Char) (h : ∀ c ∈ cs, c ≠ trig) :
    Markdown.runPass tm cs = cs :=
  replGo_id_of_no_trigger tm trig htm cs.length cs h

lemma tmCode_none {c : Char} (rest : List Char) (h : c ≠ '`') :
    Markdown.tmCode (c :: rest) = none := by simp [Markdown.tmCode, h]

lemma tmBold1_none {c : Char} (rest : List Char) (h : c ≠ '*') :
    Markdown.tmBold1 (c :: rest) = none := by simp [Markdown.tmBold1, h]

lemma tmBold2_none {c : Char} (rest : List Char) (h : c ≠ '_') :
    Markdown.tmBold2 (c :: rest) = none := by simp [Markdown.tmBold2, h]

lemma tmEm1_none {c : Char} (rest : List Char) (h : c ≠ '*') :
    Markdown.tmEm1 (c :: rest) = none := by simp [Markdown.tmEm1, h]

lemma tmEm2_none {c : Char} (rest : List Char) (h : c ≠ '_') :
    Markdown.tmEm2 (c :: rest) = none := by simp [Markdown.tmEm2, h]

lemma tmMark_none {c : Char} (rest : List Char) (h : c ≠ '=') :
    Markdown.tmMark (c :: rest) = none := by simp [Markdown.tmMark, h]

lemma tmDel_none {c : Char} (rest : List Char) (h : c ≠ '~') :
    Markdown.tmDel (c :: rest) = none := by simp [Markdown.tmDel, h]

lemma tmLink_none {c : Char} (rest : List Char) (h : c ≠ '[') :
    Markdown.tmLink (c :: rest) = none := by simp [Markdown.tmLink, h]

/-- Characters for which all inline substitution rules are inert: ASCII
alphanumerics and a few URL/punctuation characters. -/
def plainChar (c : Char) : Bool :=
  c.isAlphanum || c = '.' || c = ':' || c = '/' || c = '-' || c = ' '

lemma plainChar_ne {c : Char} (h : plainChar c = true) {s : Char}
    (hs : plainChar s = false) : c ≠ s := by
  intro e; subst e; rw [h] at hs; cases hs

lemma plainChar_literal {c : Char} (h : plainChar c = true) : isLiteralChar c = true := by
  have h1 : c ≠ '&' := plainChar_ne h (by decide)
  have h2 : c ≠ nbspChar := plainChar_ne h (by decide)
  have h3 : c ≠ '<' := plainChar_ne h (by decide)
  have h4 : c ≠ '>' := plainChar_ne h (by decide)
  simp [isLiteralChar, h1, h2, h3, h4]

lemma takeWhile_append_all {α : Type} {p : α → Bool} {xs : List α} (ys : List α)
    (h : ∀ x ∈ xs, p x = true) : (xs ++ ys).takeWhile p = xs ++ ys.takeWhile p := by
  induction xs with
  | nil => simp
  | cons x xs ih =>
    have hx := h x (by simp)
    have ih' := ih (fun a ha => h a (by simp [ha]))
    simp [List.takeWhile_cons, hx, ih']

lemma dropWhile_append_all {α : Type} {p : α → Bool} {xs : List α} (ys : List α)
    (h : ∀ x ∈ xs, p x = true) : (xs ++ ys).dropWhile p = ys.dropWhile p := by
  induction xs with
  | nil => simp
  | cons x xs ih =>
    have hx := h x (by simp)
    have ih' := ih (fun a ha => h a (by simp [ha]))
    simp [List.dropWhile_cons, hx, ih']

lemma prefix_of_append_single {pre url : List Char} {c : Char} (hc : c ∉ pre)
    (h : pre <+: url ++ [c]) : pre <+: url := by
  induction pre generalizing url with
  | nil => exact List.nil_prefix
  | cons p pre' ih =>
    cases url with
    | nil =>
      rcases List.cons_prefix_cons.mp h with ⟨rfl, _⟩
      exact absurd (List.mem_cons_self p pre') hc
    | cons u url' =>
      rcases List.cons_prefix_cons.mp h with ⟨rfl, h2⟩
      exact List.cons_prefix_cons.mpr
        ⟨rfl, ih (fun hm => hc (List.mem_cons_of_mem _ hm)) h2⟩

lemma isPrefixOf_append_paren (pre url : List Char) (hc : ')' ∉ pre) :
    pre.isPrefixOf (url ++ [')']) = pre.isPrefixOf url := by
  by_cases h : pre.isPrefixOf url = true
  · rw [h]
    exact List.isPrefixOf_iff_prefix.mpr
      ((List.isPrefixOf_iff_prefix.mp h).trans (List.prefix_append url [')']))
  · rw [Bool.not_eq_true] at h
    rw [h]
    rw [Bool.eq_false_iff]
    intro habs
    exact absurd (List.isPrefixOf_iff_prefix.mpr
      (prefix_of_append_single hc (List.isPrefixOf_iff_prefix.mp habs))) (by simp [h])

lemma tmLinkTail_some (pre url lbl : List Char) (hpre : pre <+: url)
    (hlen : pre.length < url.length) (hub : ∀ c ∈ url, c ≠ ')') :
    Markdown.tmLinkTail pre lbl (url.drop pre.length ++ [')']) =
      some (Markdown.anchorFor url lbl, []) := by
  unfold Markdown.tmLinkTail
  have hall : ∀ c ∈ url.drop pre.length, (fun c => decide (c ≠ ')')) c = true := fun c hc =>
    decide_eq_true (hub c (List.mem_of_mem_drop hc))
  rw [takeWhile_append_all _ hall, dropWhile_append_all _ hall]
  have h1 : List.takeWhile (fun c => decide (c ≠ ')')) [')'] = [] := by decide
  have h2 : List.dropWhile (fun c => decide (c ≠ ')')) [')'] = [')'] := by decide
  rw [h1, h2, List.append_nil]
  have hne : url.drop pre.length ≠ [] := by
    rw [Ne, List.drop_eq_nil_iff]; omega
  obtain ⟨a, t, hdrop⟩ := List.exists_cons_of_ne_nil hne
  have hE : (url.drop pre.length).isEmpty = false := by rw [hdrop]; rfl
  rw [hE]
  rw [List.prefix_iff_eq_append.mp hpre]
  simp only [Bool.false_eq_true, if_false]

lemma tmLink_full (label url : List Char) (hl : label ≠ [])
    (hlb : ∀ c ∈ label, c ≠ ']') (hub : ∀ c ∈ url, c ≠ ')') :
    Markdown.tmLink ('[' :: (label ++ (']' :: '(' :: (url ++ [')'])))) =
      (if ("http://".data.isPrefixOf url ∧ 7 < url.length) ∨
          ("https://".data.isPrefixOf url ∧ 8 < url.length) then
        some (Markdown.anchorFor url label, [])
      else none) := by
  have hallb : ∀ c ∈ label, (fun c => decide (c ≠ ']')) c = true := fun c hc =>
    decide_eq_true (hlb c hc)
  have hlblE : label.isEmpty = false := by
    cases label with
    | nil => exact absurd rfl hl
    | cons a t => rfl
  simp only [Markdown.tmLink]
  rw [if_pos trivial]
  simp only [takeWhile_append_all _ hallb, dropWhile_append_all _ hallb]
  have ht : List.takeWhile (fun c => decide (c ≠ ']')) (']' :: '(' :: (url ++ [')'])) = [] := by
    simp [List.takeWhile_cons]
  have hd : List.dropWhile (fun c => decide (c ≠ ']')) (']' :: '(' :: (url ++ [')'])) =
      ']' :: '(' :: (url ++ [')']) := by
    simp [List.dropWhile_cons]
  rw [ht, hd, List.append_nil, hlblE]
  simp only [Bool.false_eq_true, if_false]
  have hps : "https://".data.isPrefixOf (url ++ [')']) = "https://".data.isPrefixOf url :=
    isPrefixOf_append_paren _ _ (by decide)
  have hph : "http://".data.isPrefixOf (url ++ [')']) = "http://".data.isPrefixOf url :=
    isPrefixOf_append_paren _ _ (by decide)
  rw [hps, hph]
  by_cases h8 : "https://".data.isPrefixOf url = true
  · have hpre : "https://".data <+: url := List.isPrefixOf_iff_prefix.mp h8
    have hle : 8 ≤ url.length := by
      have := hpre.length_le; simpa using this
    rw [if_pos h8]
    by_cases hlen8 : 8 < url.length
    · have hdrop : (url ++ [')']).drop 8 = url.drop 8 ++ [')'] := by
        rw [List.drop_append_eq_append_drop]
        have h0 : 8 - url.length = 0 := by omega
        rw [h0]
        rfl
      rw [hdrop]
      have hlen' : ("https://".data).length = 8 := by decide
      have hsome := tmLinkTail_some "https://".data url label hpre (by omega) hub
      rw [hlen'] at hsome
      rw [hsome, if_pos (Or.inr ⟨h8, hlen8⟩)]
    · have hlen : url.length = 8 := by omega
      have hurl : url = "https://".data :=
        (List.IsPrefix.eq_of_length hpre (by rw [hlen]; decide)).symm
      subst hurl
      have hcond : ¬(("http://".data.isPrefixOf "https://".data ∧
          7 < ("https://".data).length) ∨
          ("https://".data.isPrefixOf "https://".data ∧
          8 < ("https://".data).length)) := by
        rintro (⟨hp, _⟩ | ⟨_, hlen'⟩)
        · exact absurd hp (by decide)
        · exact absurd hlen' (by decide)
      rw [if_neg hcond]
      rfl
  · have hpre8 : ¬("https://".data.isPrefixOf url ∧ 8 < url.length) := fun hx => h8 hx.1
    rw [if_neg h8]
    by_cases h7 : "http://".data.isPrefixOf url = true
    · have hpre : "http://".data <+: url := List.isPrefixOf_iff_prefix.mp h7
      have hle : 7 ≤ url.length := by
        have := hpre.length_le; simpa using this
      rw [if_pos h7]
      by_cases hlen7 : 7 < url.length
      · have hdrop : (url ++ [')']).drop 7 = url.drop 7 ++ [')'] := by
          rw [List.drop_append_eq_append_drop]
          have h0 : 7 - url.length = 0 := by omega
          rw [h0]
          rfl
        rw [hdrop]
        have hlen' : ("http://".data).length = 7 := by decide
        have hsome := tmLinkTail_some "http://".data url label hpre (by omega) hub
        rw [hlen'] at hsome
        rw [hsome, if_pos (Or.inl ⟨h7, hlen7⟩)]
      · have hlen : url.length = 7 := by omega
        have hurl : url = "http://".data :=
          (List.IsPrefix.eq_of_length hpre (by rw [hlen]; decide)).symm
        subst hurl
        have hcond : ¬(("http://".data.isPrefixOf "http://".data ∧
            7 < ("http://".data).length) ∨
            ("https://".data.isPrefixOf "http://".data ∧
            8 < ("http://".data).length)) := by
          rintro (⟨_, hlen'⟩ | ⟨hp, _⟩)
          · exact absurd hlen' (by decide)
          · exact absurd hp (by decide)
        rw [if_neg hcond]
        rfl
    · rw [if_neg h7]
      have hcond : ¬(("http://".data.isPrefixOf url ∧ 7 < url.length) ∨
          ("https://".data.isPrefixOf url ∧ 8 < url.length)) := by
        rintro (⟨hp, _⟩ | ⟨hp, _⟩)
        · exact absurd hp h7
        · exact absurd hp h8
      rw [if_neg hcond]

/-- `pat` occurs as a contiguous substring. -/
def containsSub (pat : List Char) : List Char → Bool
  | [] => pat.isPrefixOf []
  | c :: rest => pat.isPrefixOf (c :: rest) || containsSub pat rest

/-- C4, counterexample: the scheme comparison of the link rule is
case-sensitive.  `[x](HTTP://a.com)` — whose scheme is `http` under the
claimed case-insensitive comparison — produces no anchor at all: the line is
left as literal text. -/
theorem c4_counterexample :
    Markdown.inlineFmt "[x](HTTP://a.com)" = "[x](HTTP://a.com)" ∧
    containsSub "<a".data (Markdown.inlineFmt "[x](HTTP://a.com)").data = false := by
  refine ⟨by decide, by decide⟩

/-- C4, amended: on a bracket/paren link whose label and URL consist of
inert characters, the link rule produces the anchor — with the
`rel="noopener noreferrer"` policy and `target="_blank"` — exactly when the
URL starts with the lowercase literal `http://` or `https://` and has at
least one further character; otherwise (any other scheme, uppercase scheme
letters, or an empty remainder) the input is left as literal escaped
text. -/
theorem c4_link_amended (label url : List Char) (hl : label ≠ [])
    (hlp : ∀ c ∈ label, plainChar c = true) (hup : ∀ c ∈ url, plainChar c = true) :
    Markdown.inlineFmt ⟨'[' :: (label ++ (']' :: '(' :: (url ++ [')'])))⟩ =
      (if ("http://".data.isPrefixOf url ∧ 7 < url.length) ∨
          ("https://".data.isPrefixOf url ∧ 8 < url.length) then
        (⟨Markdown.anchorFor url label⟩ : String)
      else ⟨'[' :: (label ++ (']' :: '(' :: (url ++ [')'])))⟩) := by
  have hlb : ∀ c ∈ label, c ≠ ']' := fun c hc => plainChar_ne (hlp c hc) (by decide)
  have hub : ∀ c ∈ url, c ≠ ')' := fun c hc => plainChar_ne (hup c hc) (by decide)
  have hmemT : ∀ c ∈ label ++ (']' :: '(' :: (url ++ [')'])),
      plainChar c = true ∨ c = ']' ∨ c = '(' ∨ c = ')' := by
    intro c hc
    simp only [List.mem_append, List.mem_cons, List.not_mem_nil, or_false] at hc
    rcases hc with hc | rfl | rfl | hc | rfl
    · exact Or.inl (hlp c hc)
    · exact Or.inr (Or.inl rfl)
    · exact Or.inr (Or.inr (Or.inl rfl))
    · exact Or.inl (hup c hc)
    · exact Or.inr (Or.inr (Or.inr rfl))
  have hmemF : ∀ c ∈ ('[' :: (label ++ (']' :: '(' :: (url ++ [')'])))),
      plainChar c = true ∨ c = '[' ∨ c = ']' ∨ c = '(' ∨ c = ')' := by
    intro c hc
    rcases List.mem_cons.mp hc with rfl | hc
    · exact Or.inr (Or.inl rfl)
    · rcases hmemT c hc with h | h | h | h
      · exact Or.inl h
      · exact Or.inr (Or.inr (Or.inl h))
      · exact Or.inr (Or.inr (Or.inr (Or.inl h)))
      · exact Or.inr (Or.inr (Or.inr (Or.inr h)))
  have hesc : Security.escapeList ('[' :: (label ++ (']' :: '(' :: (url ++ [')'])))) =
      '[' :: (label ++ (']' :: '(' :: (url ++ [')']))) := by
    apply escapeList_literal
    intro c hc
    rcases hmemF c hc with h | rfl | rfl | rfl | rfl
    · exact plainChar_literal h
    all_goals decide
  have hnot : ∀ (t : Char), plainChar t = false → ('[' : Char) ≠ t → (']' : Char) ≠ t →
      ('(' : Char) ≠ t → (')' : Char) ≠ t →
      ∀ c ∈ ('[' :: (label ++ (']' :: '(' :: (url ++ [')'])))), c ≠ t := by
    intro t ht hb1 hb2 hb3 hb4 c hc
    rcases hmemF c hc with h | rfl | rfl | rfl | rfl
    · exact plainChar_ne h ht
    · exact hb1
    · exact hb2
    · exact hb3
    · exact hb4
  have hpassCode := runPass_id_of_no_trigger _ '`' (fun c r h => tmCode_none r h)
    ('[' :: (label ++ (']' :: '(' :: (url ++ [')']))))
    (hnot '`' (by decide) (by decide) (by decide) (by decide) (by decide))
  have hpassB1 := runPass_id_of_no_trigger _ '*' (fun c r h => tmBold1_none r h)
    ('[' :: (label ++ (']' :: '(' :: (url ++ [')']))))
    (hnot '*' (by decide) (by decide) (by decide) (by decide) (by decide))
  have hpassB2 := runPass_id_of_no_trigger _ '_' (fun c r h => tmBold2_none r h)
    ('[' :: (label ++ (']' :: '(' :: (url ++ [')']))))
    (hnot '_' (by decide) (by decide) (by decide) (by decide) (by decide))
  have hpassE1 := runPass_id_of_no_trigger _ '*' (fun c r h => tmEm1_none r h)
    ('[' :: (label ++ (']' :: '(' :: (url ++ [')']))))
    (hnot '*' (by decide) (by decide) (by decide) (by decide) (by decide))
  have hpassE2 := runPass_id_of_no_trigger _ '_' (fun c r h => tmEm2_none r h)
    ('[' :: (label ++ (']' :: '(' :: (url ++ [')']))))
    (hnot '_' (by decide) (by decide) (by decide) (by decide) (by decide))
  have hpassM := runPass_id_of_no_trigger _ '=' (fun c r h => tmMark_none r h)
    ('[' :: (label ++ (']' :: '(' :: (url ++ [')']))))
    (hnot '=' (by decide) (by decide) (by decide) (by decide) (by decide))
  have hpassD := runPass_id_of_no_trigger _ '~' (fun c r h => tmDel_none r h)
    ('[' :: (label ++ (']' :: '(' :: (url ++ [')']))))
    (hnot '~' (by decide) (by decide) (by decide) (by decide) (by decide))
  have hrp : Markdown.runPass Markdown.tmLink
      ('[' :: (label ++ (']' :: '(' :: (url ++ [')'])))) =
      (if ("http://".data.isPrefixOf url ∧ 7 < url.length) ∨
          ("https://".data.isPrefixOf url ∧ 8 < url.length) then
        Markdown.anchorFor url label
      else '[' :: (label ++ (']' :: '(' :: (url ++ [')'])))) := by
    unfold Markdown.runPass
    rw [List.length_cons]
    simp only [Markdown.replGo]
    rw [tmLink_full label url hl hlb hub]
    by_cases hcond : ("http://".data.isPrefixOf url ∧ 7 < url.length) ∨
        ("https://".data.isPrefixOf url ∧ 8 < url.length)
    · rw [if_pos hcond, if_pos hcond]
      show Markdown.anchorFor url label ++
        Markdown.replGo Markdown.tmLink (label ++ (']' :: '(' :: (url ++ [')']))).length [] = _
      rw [replGo_nil]
      exact List.append_nil _
    · rw [if_neg hcond, if_neg hcond]
      show '[' :: Markdown.replGo Markdown.tmLink
        (label ++ (']' :: '(' :: (url ++ [')']))).length
        (label ++ (']' :: '(' :: (url ++ [')']))) = _
      rw [replGo_id_of_no_trigger Markdown.tmLink '[' (fun c r h => tmLink_none r h) _ _
        (fun c hc => by
          rcases hmemT c hc with h | rfl | rfl | rfl
          · exact plainChar_ne h (by decide)
          all_goals decide)]
  show (⟨Markdown.inlineList (Security.escapeList
    ('[' :: (label ++ (']' :: '(' :: (url ++ [')'])))))⟩ : String) = _
  unfold Markdown.inlineList
  rw [hesc, hpassCode, hpassB1, hpassB2, hpassE1, hpassE2, hpassM, hpassD, hrp]
  by_cases hcond : ("http://".data.isPrefixOf url ∧ 7 < url.length) ∨
      ("https://".data.isPrefixOf url ∧ 8 < url.length)
  · rw [if_pos hcond, if_pos hcond]
  · rw [if_neg hcond, if_neg hcond]

/-- C4 witness: a concrete accepted link. -/
theorem c4_witness :
    Markdown.inlineFmt ⟨'[' :: ("x".data ++ (']' :: '(' :: ("https://example.com".data ++ [')'])))⟩ =
      (⟨Markdown.anchorFor "https://example.com".data "x".data⟩ : String) := by
  have h := c4_link_amended "x".data "https://example.com".data (by decide)
    (by decide) (by decide)
  rw [h]
  decide

-- ============================================================
-- Block-scanner lemmas (claims C7, C8, C9)
-- ============================================================

lemma parseGo_nil (fuel : Nat) : Markdown.parseGo fuel [] = [] := by
  cases fuel <;> rfl

lemma trimRight_cons_not_ws {c : Char} (cs : List Char) (h : isJsWs c = false) :
    Markdown.trimRight (c :: cs) = c :: Markdown.trimRight cs := by
  cases htr : Markdown.trimRight cs with
  | nil => simp [Markdown.trimRight, htr, h]
  | cons x xs => simp [Markdown.trimRight, htr]

lemma trimList_cons_not_ws {c : Char} (cs : List Char) (h : isJsWs c = false) :
    Markdown.trimList (c :: cs) = c :: Markdown.trimRight cs := by
  unfold Markdown.trimList
  rw [List.dropWhile_cons, if_neg (by simp [h])]
  exact trimRight_cons_not_ws cs h

lemma hrTest_false_of_head {c : Char} (cs : List Char) (hws : isJsWs c = false)
    (hc : c ≠ '-') : Markdown.hrTest (c :: cs) = false := by
  unfold Markdown.hrTest
  rw [trimList_cons_not_ws cs hws]
  simp [List.all_cons, hc]

lemma hrTest_false_of_ul {c : Char} (rest : List Char) (hc : c = '-' ∨ c = '*') :
    Markdown.hrTest (c :: ' ' :: rest) = false := by
  rcases hc with rfl | rfl
  · unfold Markdown.hrTest
    rw [trimList_cons_not_ws _ (by decide)]
    cases htr : Markdown.trimRight rest with
    | nil =>
      have h2 : Markdown.trimRight (' ' :: rest) = [] := by
        simp only [Markdown.trimRight, htr]
        rw [if_pos (by decide)]
      rw [h2]
      decide
    | cons y ys =>
      have h2 : Markdown.trimRight (' ' :: rest) = ' ' :: y :: ys := by
        simp [Markdown.trimRight, htr]
      rw [h2]
      simp [List.all_cons]
  · exact hrTest_false_of_head _ (by decide) (by decide)

lemma isPrefixOf_cons_false {a c : Char} (as cs : List Char) (h : c ≠ a) :
    List.isPrefixOf (a :: as) (c :: cs) = false := by
  rw [List.isPrefixOf_cons₂]
  simp [beq_eq_false_iff_ne, Ne.symm h]

lemma isFence_cons_false {c : Char} (cs : List Char) (h : c ≠ '`') :
    Markdown.isFence (c :: cs) = false := by
  unfold Markdown.isFence
  exact isPrefixOf_cons_false _ _ h

lemma h3T_cons_false {c : Char} (cs : List Char) (h : c ≠ '#') :
    Markdown.h3T (c :: cs) = false := by
  unfold Markdown.h3T
  rw [isPrefixOf_cons_false _ _ h]
  rfl

lemma h2T_cons_false {c : Char} (cs : List Char) (h : c ≠ '#') :
    Markdown.h2T (c :: cs) = false := by
  unfold Markdown.h2T
  rw [isPrefixOf_cons_false _ _ h]
  rfl

lemma h1T_cons_false {c : Char} (cs : List Char) (h : c ≠ '#') :
    Markdown.h1T (c :: cs) = false := by
  unfold Markdown.h1T
  rw [isPrefixOf_cons_false _ _ h]
  rfl

lemma isQL_cons_false {c : Char} (cs : List Char) (h : c ≠ '>') :
    Markdown.isQL (c :: cs) = false := by
  unfold Markdown.isQL
  exact isPrefixOf_cons_false _ _ h

/-- Every branch of the scan consumes at least the current line: the lines
remaining after a step are at most the lines after the current one. -/
lemma scanStep_snd_le (l : List Char) (ls : List (List Char)) :
    (Markdown.scanStep l ls).2.length ≤ ls.length := by
  unfold Markdown.scanStep
  repeat' split
  · exact le_rfl
  · calc ((ls.dropWhile (fun x => !Markdown.isFence x)).drop 1).length
        ≤ (ls.dropWhile (fun x => !Markdown.isFence x)).length := by
          rw [List.length_drop]; omega
      _ ≤ ls.length := (List.dropWhile_sublist _).length_le
  · exact le_rfl
  · exact le_rfl
  · exact le_rfl
  · rename_i hq
    rw [List.dropWhile_cons, if_pos hq]
    exact (List.dropWhile_sublist _).length_le
  · rename_i hu
    rw [List.dropWhile_cons, if_pos hu]
    exact (List.dropWhile_sublist _).length_le
  · rename_i ho
    rw [List.dropWhile_cons, if_pos ho]
    exact (List.dropWhile_sublist _).length_le
  · exact le_rfl
  · exact le_rfl

/-- Fuel-invariance of the block scan: any fuel at least the number of
remaining lines gives the same result, because every branch consumes at
least one line. -/
lemma parseGo_fuel : ∀ (f1 f2 : Nat) (lines : List (List Char)),
    lines.length ≤ f1 → lines.length ≤ f2 →
    Markdown.parseGo f1 lines = Markdown.parseGo f2 lines := by
  intro f1
  induction f1 with
  | zero =>
    intro f2 lines h1 _
    have hnil : lines = [] := List.eq_nil_of_length_eq_zero (Nat.le_zero.mp h1)
    subst hnil
    rw [parseGo_nil, parseGo_nil]
  | succ n ih =>
    intro f2 lines h1 h2
    cases lines with
    | nil => rw [parseGo_nil, parseGo_nil]
    | cons l ls =>
      cases f2 with
      | zero => simp at h2
      | succ m =>
        have hlen : ls.length ≤ n := by simpa using h1
        have hlen2 : ls.length ≤ m := by simpa using h2
        have hle := scanStep_snd_le l ls
        simp only [Markdown.parseGo]
        congr 1
        exact ih m _ (le_trans hle hlen) (le_trans hle hlen2)

lemma takeWhile_all {α : Type} {p : α → Bool} {xs : List α}
    (h : ∀ x ∈ xs, p x = true) : xs.takeWhile p = xs := by
  have := @takeWhile_append_all _ p xs [] h
  simpa using this

lemma dropWhile_all {α : Type} {p : α → Bool} {xs : List α}
    (h : ∀ x ∈ xs, p x = true) : xs.dropWhile p = [] := by
  have := @dropWhile_append_all _ p xs [] h
  simpa using this

-- ============================================================
-- Claim C7 (confirmed): unterminated code fence
-- ============================================================

/-- C7: if the opening fence has no matching closing fence, every remaining
line becomes content of one single code block — each line escaped (and only
escaped: no inline formatting touches it), joined verbatim with newlines —
and the block closes implicitly at end of input. -/
theorem c7_unterminated_fence (fence : List Char) (rest : List (List Char))
    (hf : Markdown.isFence fence = true)
    (hr : ∀ l ∈ rest, Markdown.isFence l = false) :
    Markdown.parseLines (fence :: rest) =
      ["<pre><code>".data ++
        List.intercalate ['\n'] (rest.map Security.escapeList) ++
        "</code></pre>".data] := by
  obtain ⟨c, t, rfl⟩ : ∃ c t, fence = c :: t := by
    cases fence with
    | nil => simp [Markdown.isFence] at hf
    | cons c t => exact ⟨c, t, rfl⟩
  have hc : c = '`' := by
    by_contra hcc
    rw [isFence_cons_false t hcc] at hf
    cases hf
  subst hc
  have hhr : Markdown.hrTest ('`' :: t) = false :=
    hrTest_false_of_head t (by decide) (by decide)
  have hrb : ∀ l ∈ rest, (fun x => !Markdown.isFence x) l = true := fun l hl => by
    simp [hr l hl]
  have hstep : Markdown.scanStep ('`' :: t) rest = (Markdown.fenceBlock rest, []) := by
    unfold Markdown.scanStep
    rw [if_neg (by simp [hhr]), if_pos hf, takeWhile_all hrb, dropWhile_all hrb]
    rfl
  unfold Markdown.parseLines
  simp only [List.length_cons, Markdown.parseGo, hstep]
  rw [parseGo_nil]
  rfl

/-- C7 witness: the spec's own example `"```\nline1\nline2"`. -/
theorem c7_witness :
    Markdown.parseLines ["```".data, "line1".data, "line2".data] =
      ["<pre><code>line1\nline2</code></pre>".data] := by
  have h := c7_unterminated_fence "```".data ["line1".data, "line2".data]
    (by decide) (by decide)
  exact h.trans (by decide)

-- ============================================================
-- Claim C8 (confirmed): unordered-list grouping
-- ============================================================

lemma isUL_shape {l : List Char} (h : Markdown.isUL l = true) :
    ∃ c r, l = c :: ' ' :: r ∧ (c = '-' ∨ c = '*') := by
  cases l with
  | nil => simp [Markdown.isUL] at h
  | cons c t =>
    cases t with
    | nil => simp [Markdown.isUL] at h
    | cons c2 r =>
      simp only [Markdown.isUL, Bool.and_eq_true] at h
      obtain ⟨h1, h2⟩ := h
      have hc2 : c2 = ' ' := by simpa using h2
      subst hc2
      refine ⟨c, r, rfl, ?_⟩
      simpa using h1

/-- C8: one or more consecutive `- `/`* ` lines are grouped by the scanner
into exactly one unordered-list block, one item per line in input order; the
scan then continues on the remaining lines. -/
theorem c8_ul_grouping (items rest : List (List Char)) (hne : items ≠ [])
    (hall : ∀ l ∈ items, Markdown.isUL l = true)
    (hstop : ∀ l0, rest.head? = some l0 → Markdown.isUL l0 = false) :
    Markdown.parseLines (items ++ rest) =
      Markdown.ulBlock items :: Markdown.parseLines rest := by
  obtain ⟨l, items', rfl⟩ := List.exists_cons_of_ne_nil hne
  have hl := hall l (List.mem_cons_self l items')
  obtain ⟨c, r, rfl, hc⟩ := isUL_shape hl
  have hcb : c ≠ '`' := by rcases hc with rfl | rfl <;> decide
  have hch : c ≠ '#' := by rcases hc with rfl | rfl <;> decide
  have hcq : c ≠ '>' := by rcases hc with rfl | rfl <;> decide
  have htails : ∀ x ∈ items', Markdown.isUL x = true := fun x hx =>
    hall x (List.mem_cons_of_mem _ hx)
  have hrest_tk : rest.takeWhile Markdown.isUL = [] := by
    cases rest with
    | nil => rfl
    | cons r0 rs =>
      rw [List.takeWhile_cons, if_neg (by simp [hstop r0 rfl])]
  have hrest_dw : rest.dropWhile Markdown.isUL = rest := by
    cases rest with
    | nil => rfl
    | cons r0 rs =>
      rw [List.dropWhile_cons, if_neg (by simp [hstop r0 rfl])]
  have htk : ((c :: ' ' :: r) :: (items' ++ rest)).takeWhile Markdown.isUL
      = (c :: ' ' :: r) :: items' := by
    rw [List.takeWhile_cons, if_pos hl, takeWhile_append_all rest htails, hrest_tk,
      List.append_nil]
  have hdw : ((c :: ' ' :: r) :: (items' ++ rest)).dropWhile Markdown.isUL = rest := by
    rw [List.dropWhile_cons, if_pos hl, dropWhile_append_all rest htails, hrest_dw]
  have hstep : Markdown.scanStep (c :: ' ' :: r) (items' ++ rest) =
      (Markdown.ulBlock ((c :: ' ' :: r) :: items'), rest) := by
    unfold Markdown.scanStep
    rw [if_neg (by simp [hrTest_false_of_ul r hc]),
      if_neg (by simp [isFence_cons_false _ hcb]),
      if_neg (by simp [h3T_cons_false _ hch]),
      if_neg (by simp [h2T_cons_false _ hch]),
      if_neg (by simp [h1T_cons_false _ hch]),
      if_neg (by simp [isQL_cons_false _ hcq]),
      if_pos hl, htk, hdw]
  unfold Markdown.parseLines
  rw [List.cons_append, List.length_cons]
  simp only [Markdown.parseGo]
  rw [hstep]
  congr 1
  refine parseGo_fuel _ _ rest ?_ le_rfl
  simp only [List.length_append]
  omega

/-- C8 witness: the spec's own example `"- a\n- b"` yields a single
two-item list. -/
theorem c8_witness :
    Markdown.parseLines ["- a".data, "- b".data] =
      ["<ul><li>a</li><li>b</li></ul>".data] := by
  have h := c8_ul_grouping ["- a".data, "- b".data] [] (by decide) (by decide)
    (fun l0 h0 => by cases h0)
  rw [List.append_nil] at h
  exact h.trans (by decide)

-- ============================================================
-- Claim C9 (confirmed): scan contract
-- ============================================================

/-- C9: the block scan terminates within `lines.length` steps — any fuel at
least the number of lines produces the same (deterministic) result as the
canonical run, i.e. the length of the remaining lines is a well-founded
measure that every branch strictly decreases — and the empty input produces
the empty block sequence, which renders to the empty string. -/
theorem c9_scan_contract :
    (∀ (fuel : Nat) (lines : List (List Char)), lines.length ≤ fuel →
      Markdown.parseGo fuel lines = Markdown.parseLines lines) ∧
    Markdown.parse "" = "" ∧ render "" = "" := by
  refine ⟨fun fuel lines h => parseGo_fuel fuel lines.length lines h le_rfl, rfl, rfl⟩

/-- C9 witness: surplus fuel at a concrete input. -/
theorem c9_witness :
    Markdown.parseGo 3 ["a".data] = Markdown.parseLines ["a".data] :=
  c9_scan_contract.1 3 ["a".data] (by decide)

-- ============================================================
-- Well-formedness of element forests (claims C1, C5)
-- ============================================================

/-- Characters that can appear in a parsed tag or attribute name: already
lower-cased, not whitespace, and none of the characters that end the name in
the tokenizer. -/
def tagCharOk (c : Char) : Bool :=
  lowerChar c = c && !isHtmlWs c && c ≠ '/' && c ≠ '>'

/-- A tag name as the parser can produce it: nonempty, starting with an
ASCII letter, all characters `tagCharOk`. -/
def wfTag (t : List Char) : Bool :=
  match t with
  | [] => false
  | c :: _ => c.isAlpha && t.all tagCharOk

/-- An attribute name as the parser can produce it: nonempty, all characters
`tagCharOk`, and no `=` after the first character. -/
def wfAttrName (n : List Char) : Bool :=
  match n with
  | [] => false
  | c :: rest => tagCharOk c && rest.all (fun d => tagCharOk d && d ≠ '=')

def attrNamesNodup : List HAttr → Bool
  | [] => true
  | (n, _) :: rest => !(rest.any (fun a => a.1 == n)) && attrNamesNodup rest

def wfAttrs (a : List HAttr) : Bool :=
  a.all (fun p => wfAttrName p.1) && attrNamesNodup a

def isNilF : HForest → Bool
  | .nil => true
  | _ => false

/-- Well-formed forests: exactly the shapes the host parser can hand to the
sanitizer (and that survive it): nonempty text nodes, well-formed tag and
attribute names, duplicate-free attributes, void elements childless. -/
def wfF : HForest → Bool
  | .nil => true
  | .textC s rest => !s.isEmpty && wfF rest
  | .elemC t a ch rest =>
    wfTag t && wfAttrs a && (!isVoidTag t || isNilF ch) && wfF ch && wfF rest

/-- Forests already in the sanitizer's image: no deny-listed element, no
attribute the filter would remove. -/
def safeF : HForest → Bool
  | .nil => true
  | .textC _ rest => safeF rest
  | .elemC t a ch rest =>
    !isDenied t && a.all (fun p => !attrBad p.1 p.2) && safeF ch && safeF rest

def forestNoDenied : HForest → Bool
  | .nil => true
  | .textC _ r => forestNoDenied r
  | .elemC t _ ch r => !isDenied t && forestNoDenied ch && forestNoDenied r

def forestNoOn : HForest → Bool
  | .nil => true
  | .textC _ r => forestNoOn r
  | .elemC _ a ch r =>
    a.all (fun p => !startsWithOn p.1) && forestNoOn ch && forestNoOn r

/-- Merge adjacent sibling text nodes (the browser's DOM never keeps two
adjacent text nodes after parsing; removing an element between two text
nodes makes their serializations adjacent, which a reparse merges). -/
def normF : HForest → HForest
  | .nil => .nil
  | .textC s rest =>
    match normF rest with
    | .textC s2 r2 => .textC (s ++ s2) r2
    | .nil => .textC s .nil
    | .elemC t a ch r2 => .textC s (.elemC t a ch r2)
  | .elemC t a ch rest => .elemC t a (normF ch) (normF rest)

-- ============================================================
-- lowerChar lemmas
-- ============================================================

/-- Every character either is untouched by lower-casing or is an uppercase
letter whose lowered form is a well-behaved lowercase letter. -/
lemma lowerChar_dichotomy (c : Char) :
    lowerChar c = c ∨
      (tagCharOk (lowerChar c) = true ∧ (lowerChar c).isAlpha = true ∧
        lowerChar c ≠ '=') := by
  by_cases h1 : c = 'A'
  · subst h1; right; exact ⟨by decide, by decide, by decide⟩
  by_cases h2 : c = 'B'
  · subst h2; right; exact ⟨by decide, by decide, by decide⟩
  by_cases h3 : c = 'C'
  · subst h3; right; exact ⟨by decide, by decide, by decide⟩
  by_cases h4 : c = 'D'
  · subst h4; right; exact ⟨by decide, by decide, by decide⟩
  by_cases h5 : c = 'E'
  · subst h5; right; exact ⟨by decide, by decide, by decide⟩
  by_cases h6 : c = 'F'
  · subst h6; right; exact ⟨by decide, by decide, by decide⟩
  by_cases h7 : c = 'G'
  · subst h7; right; exact ⟨by decide, by decide, by decide⟩
  by_cases h8 : c = 'H'
  · subst h8; right; exact ⟨by decide, by decide, by decide⟩
  by_cases h9 : c = 'I'
  · subst h9; right; exact ⟨by decide, by decide, by decide⟩
  by_cases h10 : c = 'J'
  · subst h10; right; exact ⟨by decide, by decide, by decide⟩
  by_cases h11 : c = 'K'
  · subst h11; right; exact ⟨by decide, by decide, by decide⟩
  by_cases h12 : c = 'L'
  · subst h12; right; exact ⟨by decide, by decide, by decide⟩
  by_cases h13 : c = 'M'
  · subst h13; right; exact ⟨by decide, by decide, by decide⟩
  by_cases h14 : c = 'N'
  · subst h14; right; exact ⟨by decide, by decide, by decide⟩
  by_cases h15 : c = 'O'
  · subst h15; right; exact ⟨by decide, by decide, by decide⟩
  by_cases h16 : c = 'P'
  · subst h16; right; exact ⟨by decide, by decide, by decide⟩
  by_cases h17 : c = 'Q'
  · subst h17; right; exact ⟨by decide, by decide, by decide⟩
  by_cases h18 : c = 'R'
  · subst h18; right; exact ⟨by decide, by decide, by decide⟩
  by_cases h19 : c = 'S'
  · subst h19; right; exact ⟨by decide, by decide, by decide⟩
  by_cases h20 : c = 'T'
  · subst h20; right; exact ⟨by decide, by decide, by decide⟩
  by_cases h21 : c = 'U'
  · subst h21; right; exact ⟨by decide, by decide, by decide⟩
  by_cases h22 : c = 'V'
  · subst h22; right; exact ⟨by decide, by decide, by decide⟩
  by_cases h23 : c = 'W'
  · subst h23; right; exact ⟨by decide, by decide, by decide⟩
  by_cases h24 : c = 'X'
  · subst h24; right; exact ⟨by decide, by decide, by decide⟩
  by_cases h25 : c = 'Y'
  · subst h25; right; exact ⟨by decide, by decide, by decide⟩
  by_cases h26 : c = 'Z'
  · subst h26; right; exact ⟨by decide, by decide, by decide⟩
  left
  unfold lowerChar
  simp [h1, h2, h3, h4, h5, h6, h7, h8, h9, h10, h11, h12, h13, h14, h15, h16, h17, h18, h19, h20, h21, h22, h23, h24, h25, h26]

lemma lowerChar_alpha_tagCharOk {c : Char} (h : c.isAlpha = true) :
    (lowerChar c).isAlpha = true ∧ tagCharOk (lowerChar c) = true := by
  rcases lowerChar_dichotomy c with hlc | ⟨ht, ha, _⟩
  · rw [hlc]
    have hsp : c ≠ ' ' := by rintro rfl; exact absurd h (by decide)
    have htb : c ≠ '\t' := by rintro rfl; exact absurd h (by decide)
    have hnl : c ≠ '\n' := by rintro rfl; exact absurd h (by decide)
    have hcr : c ≠ '\r' := by rintro rfl; exact absurd h (by decide)
    have hff : c ≠ '\x0c' := by rintro rfl; exact absurd h (by decide)
    have hsl : c ≠ '/' := by rintro rfl; exact absurd h (by decide)
    have hgt : c ≠ '>' := by rintro rfl; exact absurd h (by decide)
    refine ⟨h, ?_⟩
    unfold tagCharOk
    rw [hlc]
    simp [isHtmlWs, hsp, htb, hnl, hcr, hff, hsl, hgt]
  · exact ⟨ha, ht⟩

lemma tagCharOk_lowerChar {c : Char} (hw : isHtmlWs c = false) (h1 : c ≠ '/')
    (h2 : c ≠ '>') : tagCharOk (lowerChar c) = true := by
  rcases lowerChar_dichotomy c with hlc | ⟨ht, _, _⟩
  · unfold tagCharOk
    rw [hlc, hlc]
    simp [hw, h1, h2]
  · exact ht

lemma lowerChar_ne_eq {c : Char} (h : c ≠ '=') : lowerChar c ≠ '=' := by
  rcases lowerChar_dichotomy c with hlc | ⟨_, _, hne⟩
  · rw [hlc]; exact h
  · exact hne

-- ============================================================
-- Sanitizer and normalization lemmas
-- ============================================================

lemma escapeList_append (a b : List Char) :
    Security.escapeList (a ++ b) = Security.escapeList a ++ Security.escapeList b := by
  induction a with
  | nil => rfl
  | cons c cs ih => simp [Security.escapeList, ih]

lemma safeF_sanF (f : HForest) : safeF (sanF f) = true := by
  induction f with
  | nil => rfl
  | textC s rest ihr => simpa [sanF, safeF] using ihr
  | elemC t a ch rest ihch ihr =>
    by_cases h : isDenied t = true
    · simpa [sanF, h] using ihr
    · simp only [sanF, Bool.not_eq_true] at h ⊢
      rw [h]
      simp only [Bool.false_eq_true, if_false, safeF, h]
      refine by simp [attrsClean_filterAttrs a, ihch, ihr]

lemma sanF_of_safeF {f : HForest} (h : safeF f = true) : sanF f = f := by
  induction f with
  | nil => rfl
  | textC s rest ihr =>
    simp only [safeF] at h
    simp [sanF, ihr h]
  | elemC t a ch rest ihch ihr =>
    simp only [safeF, Bool.and_eq_true] at h
    obtain ⟨⟨⟨hd, ha⟩, hch⟩, hr⟩ := h
    rw [Bool.not_eq_true'] at hd
    simp only [sanF, hd, Bool.false_eq_true, if_false]
    rw [ihch hch, ihr hr]
    have hfa : filterAttrs a = a := by
      apply List.filter_eq_self.mpr
      intro p hp
      have := (List.all_eq_true.mp ha) p hp
      simpa using this
    rw [hfa]

lemma any_eq_false_of_filter {α : Type} (p q : α → Bool) {l : List α}
    (h : l.any p = false) : (l.filter q).any p = false := by
  rw [List.any_eq_false] at h ⊢
  intro x hx
  exact h x (List.mem_of_mem_filter hx)

lemma attrNamesNodup_filter (q : HAttr → Bool) {a : List HAttr}
    (h : attrNamesNodup a = true) : attrNamesNodup (a.filter q) = true := by
  induction a with
  | nil => rfl
  | cons p rest ih =>
    obtain ⟨n, v⟩ := p
    simp only [attrNamesNodup, Bool.and_eq_true, Bool.not_eq_true'] at h
    obtain ⟨hn, hrest⟩ := h
    by_cases hq : q (n, v) = true
    · rw [List.filter_cons_of_pos hq]
      simp only [attrNamesNodup, Bool.and_eq_true, Bool.not_eq_true']
      exact ⟨any_eq_false_of_filter _ q hn, ih hrest⟩
    · rw [List.filter_cons_of_neg (by simpa using hq)]
      exact ih hrest

lemma wfAttrs_filter (q : HAttr → Bool) {a : List HAttr}
    (h : wfAttrs a = true) : wfAttrs (a.filter q) = true := by
  simp only [wfAttrs, Bool.and_eq_true] at h ⊢
  obtain ⟨hall, hnd⟩ := h
  refine ⟨?_, attrNamesNodup_filter q hnd⟩
  rw [List.all_eq_true] at hall ⊢
  intro p hp
  exact hall p (List.mem_of_mem_filter hp)

lemma wfF_sanF {f : HForest} (h : wfF f = true) : wfF (sanF f) = true := by
  induction f with
  | nil => rfl
  | textC s rest ihr =>
    simp only [wfF, Bool.and_eq_true] at h
    simp only [sanF, wfF, Bool.and_eq_true]
    exact ⟨h.1, ihr h.2⟩
  | elemC t a ch rest ihch ihr =>
    simp only [wfF, Bool.and_eq_true] at h
    obtain ⟨⟨⟨⟨ht, ha⟩, hv⟩, hch⟩, hr⟩ := h
    by_cases hd : isDenied t = true
    · simp [sanF, hd, ihr hr]
    · rw [Bool.not_eq_true] at hd
      simp only [sanF, hd, Bool.false_eq_true, if_false, wfF, Bool.and_eq_true]
      refine ⟨⟨⟨⟨ht, wfAttrs_filter _ ha⟩, ?_⟩, ihch hch⟩, ihr hr⟩
      rcases Bool.or_eq_true _ _ |>.mp hv with hnv | hnil
      · rw [Bool.or_eq_true]; exact Or.inl hnv
      · rw [Bool.or_eq_true]
        right
        cases ch with
        | nil => rfl
        | textC _ _ => simp [isNilF] at hnil
        | elemC _ _ _ _ => simp [isNilF] at hnil

lemma serF_normF (f : HForest) : serF (normF f) = serF f := by
  induction f with
  | nil => rfl
  | textC s rest ihr =>
    cases hm : normF rest with
    | nil =>
      simp only [normF, hm]
      rw [hm] at ihr
      simp only [serF] at ihr ⊢
      simp [← ihr]
    | textC s2 r2 =>
      simp only [normF, hm]
      rw [hm] at ihr
      simp only [serF] at ihr ⊢
      rw [escapeList_append, List.append_assoc, ihr]
    | elemC t a ch r2 =>
      simp only [normF, hm]
      rw [hm] at ihr
      simp only [serF] at ihr ⊢
      rw [ihr]
  | elemC t a ch rest ihch ihr =>
    simp only [normF, serF, ihch, ihr]

lemma safeF_normF {f : HForest} (h : safeF f = true) : safeF (normF f) = true := by
  induction f with
  | nil => rfl
  | textC s rest ihr =>
    simp only [safeF] at h
    have := ihr h
    cases hm : normF rest with
    | nil => simp [normF, hm, safeF]
    | textC s2 r2 =>
      rw [hm] at this
      simp only [safeF] at this
      simp [normF, hm, safeF, this]
    | elemC t a ch r2 =>
      rw [hm] at this
      simp only [normF, hm, safeF]
      exact this
  | elemC t a ch rest ihch ihr =>
    simp only [safeF, Bool.and_eq_true] at h
    obtain ⟨⟨⟨hd, ha⟩, hch⟩, hr⟩ := h
    simp only [normF, safeF, Bool.and_eq_true]
    exact ⟨⟨⟨hd, ha⟩, ihch hch⟩, ihr hr⟩

lemma safeF_noDenied {f : HForest} (h : safeF f = true) :
    forestNoDenied f = true := by
  induction f with
  | nil => rfl
  | textC s rest ihr => simp only [safeF] at h; exact ihr h
  | elemC t a ch rest ihch ihr =>
    simp only [safeF, Bool.and_eq_true] at h
    obtain ⟨⟨⟨hd, _⟩, hch⟩, hr⟩ := h
    simp only [forestNoDenied, Bool.and_eq_true]
    exact ⟨⟨hd, ihch hch⟩, ihr hr⟩

lemma safeF_noOn {f : HForest} (h : safeF f = true) : forestNoOn f = true := by
  induction f with
  | nil => rfl
  | textC s rest ihr => simp only [safeF] at h; exact ihr h
  | elemC t a ch rest ihch ihr =>
    simp only [safeF, Bool.and_eq_true] at h
    obtain ⟨⟨⟨_, ha⟩, hch⟩, hr⟩ := h
    simp only [forestNoOn, Bool.and_eq_true]
    refine ⟨⟨?_, ihch hch⟩, ihr hr⟩
    rw [List.all_eq_true] at ha ⊢
    intro p hp
    have := ha p hp
    simp only [Bool.not_eq_true', attrBad, Bool.or_eq_false_iff] at this
    simp [this.1]

-- ============================================================
-- Tokenizer lemmas: re-tokenizing serialized output
-- ============================================================

/-- The token stream of a forest's serialization. -/
def tokensOfF : HForest → List Tok
  | .nil => []
  | .textC s rest => charToks s ++ tokensOfF rest
  | .elemC t a ch rest =>
    Tok.tagO t a :: ((if isVoidTag t then [] else tokensOfF ch ++ [Tok.tagC t])
      ++ tokensOfF rest)

lemma tagCharOk_spec {c : Char} (h : tagCharOk c = true) :
    lowerChar c = c ∧ isHtmlWs c = false ∧ c ≠ '/' ∧ c ≠ '>' := by
  simp only [tagCharOk, Bool.and_eq_true, Bool.not_eq_true', decide_eq_true_eq] at h
  exact ⟨h.1.1.1, h.1.1.2, h.1.2, h.2⟩

lemma wfTag_spec {t : List Char} (h : wfTag t = true) :
    ∃ c rest, t = c :: rest ∧ c.isAlpha = true ∧ ∀ d ∈ t, tagCharOk d = true := by
  cases t with
  | nil => simp [wfTag] at h
  | cons c rest =>
    simp only [wfTag, Bool.and_eq_true, List.all_eq_true] at h
    exact ⟨c, rest, rfl, h.1, h.2⟩

lemma wfAttrName_spec {n : List Char} (h : wfAttrName n = true) :
    ∃ c rest, n = c :: rest ∧ tagCharOk c = true ∧
      ∀ d ∈ rest, tagCharOk d = true ∧ d ≠ '=' := by
  cases n with
  | nil => simp [wfAttrName] at h
  | cons c rest =>
    simp only [wfAttrName, Bool.and_eq_true, List.all_eq_true] at h
    refine ⟨c, rest, rfl, h.1, fun d hd => ?_⟩
    have := h.2 d hd
    simp only [Bool.and_eq_true, decide_eq_true_eq] at this
    exact ⟨this.1, this.2⟩

lemma runT_data_escChar (c : Char) (b : List Char) :
    runT .data (Security.escChar c ++ b) =
      (Tok.chr c :: (runT .data b).1, (runT .data b).2) := by
  by_cases h1 : c = '&'
  · subst h1; simp [Security.escChar, runT, step, decodeEnt, charToks]
  by_cases h2 : c = nbspChar
  · subst h2; simp [Security.escChar, runT, step, decodeEnt, charToks]
  by_cases h3 : c = '<'
  · subst h3; simp [Security.escChar, runT, step, decodeEnt, charToks]
  by_cases h4 : c = '>'
  · subst h4; simp [Security.escChar, runT, step, decodeEnt, charToks]
  · simp [Security.escChar, h1, h2, h3, h4, runT, step]

lemma runT_data_escList (s b : List Char) :
    runT .data (Security.escapeList s ++ b) =
      (charToks s ++ (runT .data b).1, (runT .data b).2) := by
  induction s with
  | nil => simp [Security.escapeList, charToks]
  | cons c cs ih =>
    rw [Security.escapeList, List.append_assoc, runT_data_escChar c _, ih]
    simp [charToks]

lemma runT_tagName_chars {t2 : List Char} (h : ∀ c ∈ t2, tagCharOk c = true) :
    ∀ (acc b : List Char),
      runT (.tagName acc) (t2 ++ b) = runT (.tagName (acc ++ t2)) b := by
  induction t2 with
  | nil => intro acc b; simp
  | cons d ds ih =>
    intro acc b
    obtain ⟨hl, hw, hs, hg⟩ := tagCharOk_spec (h d (by simp))
    rw [List.cons_append]
    show runT (.tagName acc) (d :: (ds ++ b)) = _
    simp only [runT, step, hw, hs, hg, if_neg, Bool.false_eq_true, if_false, hl]
    rw [ih (fun x hx => h x (by simp [hx]))]
    simp

lemma runT_endTag_chars {t2 : List Char} (h : ∀ c ∈ t2, tagCharOk c = true) :
    ∀ (acc b : List Char),
      runT (.endTag acc) (t2 ++ b) = runT (.endTag (acc ++ t2)) b := by
  induction t2 with
  | nil => intro acc b; simp
  | cons d ds ih =>
    intro acc b
    obtain ⟨hl, _, _, hg⟩ := tagCharOk_spec (h d (by simp))
    rw [List.cons_append]
    show runT (.endTag acc) (d :: (ds ++ b)) = _
    simp only [runT, step, hg, if_neg, Bool.false_eq_true, if_false, hl]
    rw [ih (fun x hx => h x (by simp [hx]))]
    simp

lemma runT_attrName_chars {n2 : List Char}
    (h : ∀ c ∈ n2, tagCharOk c = true ∧ c ≠ '=') :
    ∀ (t : List Char) (a : List HAttr) (acc b : List Char),
      runT (.attrName t a acc) (n2 ++ b) = runT (.attrName t a (acc ++ n2)) b := by
  induction n2 with
  | nil => intro t a acc b; simp
  | cons d ds ih =>
    intro t a acc b
    obtain ⟨hok, he⟩ := h d (by simp)
    obtain ⟨hl, hw, hs, hg⟩ := tagCharOk_spec hok
    rw [List.cons_append]
    show runT (.attrName t a acc) (d :: (ds ++ b)) = _
    simp only [runT, step, he, hw, hs, hg, if_neg, Bool.false_eq_true, if_false, hl]
    rw [ih (fun x hx => h x (by simp [hx]))]
    simp

lemma runT_valueDq_escAttrChar (c : Char) (t : List Char) (a : List HAttr)
    (n vacc b : List Char) :
    runT (.valueDq t a n vacc) (escAttrChar c ++ b) =
      runT (.valueDq t a n (vacc ++ [c])) b := by
  by_cases h1 : c = '&'
  · subst h1; simp [escAttrChar, runT, step, decodeEnt]
  by_cases h2 : c = nbspChar
  · subst h2; simp [escAttrChar, runT, step, decodeEnt]
  by_cases h3 : c = '"'
  · subst h3; simp [escAttrChar, runT, step, decodeEnt]
  · simp [escAttrChar, h1, h2, h3, runT, step]

lemma runT_valueDq_escAttrList (v : List Char) :
    ∀ (vacc b : List Char) (t : List Char) (a : List HAttr) (n : List Char),
      runT (.valueDq t a n vacc) (escAttrList v ++ b) =
        runT (.valueDq t a n (vacc ++ v)) b := by
  induction v with
  | nil => intro vacc b t a n; simp [escAttrList]
  | cons c cs ih =>
    intro vacc b t a n
    rw [escAttrList, List.append_assoc, runT_valueDq_escAttrChar, ih]
    simp

lemma beq_names_comm (m n : List Char) : (m == n) = (n == m) := by
  by_cases h : m = n
  · subst h; simp
  · rw [beq_eq_false_iff_ne.mpr h, beq_eq_false_iff_ne.mpr (Ne.symm h)]


-- single-step tokenizer transitions
lemma runT_step_eq (s : TState) (c : Char) (b : List Char) :
    runT s (c :: b) = ((step s c).2 ++ (runT (step s c).1 b).1,
      (runT (step s c).1 b).2) := by
  simp [runT]

lemma runT_silent {s : TState} {c : Char} {s2 : TState} (h : step s c = (s2, []))
    (b : List Char) : runT s (c :: b) = runT s2 b := by
  rw [runT_step_eq, h]
  simp

lemma isHtmlWs_space : isHtmlWs ' ' = true := by decide
lemma isHtmlWs_dq : isHtmlWs '"' = false := by decide
lemma isHtmlWs_gt : isHtmlWs '>' = false := by decide

lemma runT_beforeAttr_space (t : List Char) (a : List HAttr) (b : List Char) :
    runT (.beforeAttr t a) (' ' :: b) = runT (.beforeAttr t a) b :=
  runT_silent (by simp [step, isHtmlWs_space]) b

lemma runT_beforeAttr_start {c : Char} (hw : isHtmlWs c = false) (hs : c ≠ '/')
    (hg : c ≠ '>') (t : List Char) (a : List HAttr) (b : List Char) :
    runT (.beforeAttr t a) (c :: b) = runT (.attrName t a [lowerChar c]) b :=
  runT_silent (by simp [step, hw, hs, hg]) b

lemma runT_beforeAttr_gt (t : List Char) (a : List HAttr) (b : List Char) :
    runT (.beforeAttr t a) ('>' :: b) =
      (Tok.tagO t a :: (runT .data b).1, (runT .data b).2) := by
  rw [runT_step_eq]
  simp [step, isHtmlWs_gt]

lemma runT_attrName_eq (t : List Char) (a : List HAttr) (n b : List Char) :
    runT (.attrName t a n) ('=' :: b) = runT (.beforeValue t a n) b :=
  runT_silent (by simp [step]) b

lemma runT_beforeValue_dq (t : List Char) (a : List HAttr) (n b : List Char) :
    runT (.beforeValue t a n) ('"' :: b) = runT (.valueDq t a n []) b :=
  runT_silent (by simp [step, isHtmlWs_dq]) b

lemma runT_valueDq_close (t : List Char) (a : List HAttr) (n v b : List Char) :
    runT (.valueDq t a n v) ('"' :: b) = runT (.beforeAttr t (pushAttr a n v)) b :=
  runT_silent (by simp [step]) b

lemma runT_data_lt (b : List Char) :
    runT .data ('<' :: b) = runT .tagOpen b :=
  runT_silent (by simp [step]) b

lemma runT_tagOpen_alpha {c : Char} (h : c.isAlpha = true) (b : List Char) :
    runT .tagOpen (c :: b) = runT (.tagName [lowerChar c]) b := by
  refine runT_silent ?_ b
  have hs : c ≠ '/' := by rintro rfl; exact absurd h (by decide)
  simp [step, h, hs]

lemma runT_tagOpen_slash (b : List Char) :
    runT .tagOpen ('/' :: b) = runT (.endTag []) b :=
  runT_silent (by simp [step]) b

lemma runT_tagName_space (t : List Char) (b : List Char) :
    runT (.tagName t) (' ' :: b) = runT (.beforeAttr t []) b :=
  runT_silent (by simp [step, isHtmlWs_space]) b

lemma runT_tagName_gt (t : List Char) (b : List Char) :
    runT (.tagName t) ('>' :: b) =
      (Tok.tagO t [] :: (runT .data b).1, (runT .data b).2) := by
  rw [runT_step_eq]
  simp [step, isHtmlWs_gt]

lemma runT_endTag_gt {t : List Char} (h : t.isEmpty = false) (b : List Char) :
    runT (.endTag t) ('>' :: b) =
      (Tok.tagC t :: (runT .data b).1, (runT .data b).2) := by
  rw [runT_step_eq]
  simp [step, h]

/-- The serialization of an attribute list with the leading space of the
first attribute stripped. -/
def serAttrsBody : List HAttr → List Char
  | [] => []
  | (n, v) :: rest => (n ++ '=' :: '"' :: escAttrList v ++ ['"']) ++ serAttrs rest

lemma serAttrs_cons_eq (p : HAttr) (rest : List HAttr) :
    serAttrs (p :: rest) = ' ' :: serAttrsBody (p :: rest) := by
  obtain ⟨n, v⟩ := p
  rfl

lemma runT_beforeAttr_body :
    ∀ (a : List HAttr) (t : List Char) (acc : List HAttr) (b : List Char),
      (∀ p ∈ a, wfAttrName p.1 = true) →
      attrNamesNodup a = true →
      (∀ p ∈ a, acc.any (fun q => q.1 == p.1) = false) →
      runT (.beforeAttr t acc) (serAttrsBody a ++ ('>' :: b)) =
        (Tok.tagO t (acc ++ a) :: (runT .data b).1, (runT .data b).2) := by
  intro a
  induction a with
  | nil =>
    intro t acc b _ _ _
    show runT (.beforeAttr t acc) ('>' :: b) = _
    rw [runT_beforeAttr_gt]
    simp
  | cons p rest ih =>
    intro t acc b hwf hnd hfresh
    obtain ⟨n, v⟩ := p
    obtain ⟨n0, ntail, hneq, hok0, htail⟩ := wfAttrName_spec (hwf ⟨n, v⟩ (by simp))
    obtain ⟨hl0, hw0, hs0, hg0⟩ := tagCharOk_spec hok0
    subst hneq
    have hshape : serAttrsBody ((n0 :: ntail, v) :: rest) ++ ('>' :: b) =
        n0 :: (ntail ++ ('=' :: '"' :: (escAttrList v ++
          ('"' :: (serAttrs rest ++ ('>' :: b)))))) := by
      simp [serAttrsBody, List.append_assoc]
    rw [hshape, runT_beforeAttr_start hw0 hs0 hg0, hl0,
      runT_attrName_chars (fun c hc => htail c hc), runT_attrName_eq,
      runT_beforeValue_dq, runT_valueDq_escAttrList, runT_valueDq_close]
    have hanyacc : acc.any (fun q => q.1 == n0 :: ntail) = false :=
      hfresh ⟨n0 :: ntail, v⟩ (by simp)
    have hpush : pushAttr acc (n0 :: ntail) v = acc ++ [(n0 :: ntail, v)] := by
      unfold pushAttr
      rw [if_neg (by simp [hanyacc])]
    simp only [List.singleton_append, List.nil_append]
    rw [hpush]
    have hnd' : attrNamesNodup rest = true := by
      simp only [attrNamesNodup, Bool.and_eq_true] at hnd
      exact hnd.2
    have hhead : rest.any (fun q => q.1 == n0 :: ntail) = false := by
      simp only [attrNamesNodup, Bool.and_eq_true, Bool.not_eq_true'] at hnd
      exact hnd.1
    have hfresh' : ∀ p ∈ rest,
        (acc ++ [(n0 :: ntail, v)]).any (fun q => q.1 == p.1) = false := by
      intro p hp
      rw [List.any_append]
      have h1 := hfresh p (List.mem_cons_of_mem _ hp)
      have h2 : ((n0 :: ntail, v) :: ([] : List HAttr)).any
          (fun q => q.1 == p.1) = false := by
        simp only [List.any_cons, List.any_nil, Bool.or_false]
        rw [beq_names_comm]
        rw [List.any_eq_false] at hhead
        have h3 := hhead p hp
        simp only [Bool.not_eq_true] at h3
        exact h3
      simp [h1, h2]
    cases rest with
    | nil =>
      show runT (.beforeAttr t (acc ++ [(n0 :: ntail, v)])) ('>' :: b) = _
      rw [runT_beforeAttr_gt]
    | cons q rs =>
      rw [serAttrs_cons_eq, List.cons_append, runT_beforeAttr_space]
      have := ih t (acc ++ [(n0 :: ntail, v)]) b
        (fun p hp => hwf p (List.mem_cons_of_mem _ hp)) hnd' hfresh'
      rw [this]
      simp

lemma runT_data_serOpen (t : List Char) (a : List HAttr) (b : List Char)
    (ht : wfTag t = true) (ha : ∀ p ∈ a, wfAttrName p.1 = true)
    (hnd : attrNamesNodup a = true) :
    runT .data ('<' :: (t ++ (serAttrs a ++ ('>' :: b)))) =
      (Tok.tagO t a :: (runT .data b).1, (runT .data b).2) := by
  obtain ⟨t0, ttail, rfl, halpha, hall⟩ := wfTag_spec ht
  rw [runT_data_lt]
  show runT .tagOpen (t0 :: (ttail ++ (serAttrs a ++ ('>' :: b)))) = _
  rw [runT_tagOpen_alpha halpha, (tagCharOk_spec (hall t0 (by simp))).1,
    runT_tagName_chars (fun d hd => hall d (by simp [hd]))]
  simp only [List.singleton_append]
  cases a with
  | nil =>
    show runT (.tagName (t0 :: ttail)) ('>' :: b) = _
    rw [runT_tagName_gt]
  | cons p rest =>
    rw [serAttrs_cons_eq, List.cons_append, runT_tagName_space]
    have hb := runT_beforeAttr_body (p :: rest) (t0 :: ttail) [] b ha hnd
      (fun p _ => rfl)
    rw [hb]
    simp

lemma runT_data_serClose (t : List Char) (b : List Char) (ht : wfTag t = true) :
    runT .data ('<' :: '/' :: (t ++ ('>' :: b))) =
      (Tok.tagC t :: (runT .data b).1, (runT .data b).2) := by
  obtain ⟨t0, ttail, rfl, _, hall⟩ := wfTag_spec ht
  rw [runT_data_lt, runT_tagOpen_slash]
  show runT (.endTag []) ((t0 :: ttail) ++ ('>' :: b)) = _
  rw [runT_endTag_chars hall]
  simp only [List.nil_append]
  exact runT_endTag_gt (show (t0 :: ttail).isEmpty = false from rfl) b

lemma runT_data_serF : ∀ (f : HForest), wfF f = true → ∀ (b : List Char),
    runT .data (serF f ++ b) =
      (tokensOfF f ++ (runT .data b).1, (runT .data b).2) := by
  intro f
  induction f with
  | nil => intro _ b; simp [serF, tokensOfF]
  | textC s rest ihr =>
    intro h b
    simp only [wfF, Bool.and_eq_true] at h
    show runT .data ((Security.escapeList s ++ serF rest) ++ b) = _
    rw [List.append_assoc, runT_data_escList, ihr h.2 b]
    simp [tokensOfF, List.append_assoc]
  | elemC t a ch rest ihch ihr =>
    intro h b
    simp only [wfF, Bool.and_eq_true] at h
    obtain ⟨⟨⟨⟨ht, ha⟩, hv⟩, hch⟩, hr⟩ := h
    have ha1 : ∀ p ∈ a, wfAttrName p.1 = true := by
      have := (Bool.and_eq_true _ _ |>.mp ha).1
      rw [List.all_eq_true] at this
      exact fun p hp => this p hp
    have ha2 : attrNamesNodup a = true := (Bool.and_eq_true _ _ |>.mp ha).2
    by_cases hvoid : isVoidTag t = true
    · have hchnil : ch = .nil := by
        rcases Bool.or_eq_true _ _ |>.mp hv with hx | hx
        · rw [Bool.not_eq_true'] at hx
          rw [hx] at hvoid
          cases hvoid
        · cases ch with
          | nil => rfl
          | textC _ _ => simp [isNilF] at hx
          | elemC _ _ _ _ => simp [isNilF] at hx
      subst hchnil
      have hshape : serF (.elemC t a .nil rest) ++ b =
          '<' :: (t ++ (serAttrs a ++ ('>' :: (serF rest ++ b)))) := by
        simp [serF, hvoid, List.append_assoc]
      rw [hshape, runT_data_serOpen t a _ ht ha1 ha2, ihr hr b]
      simp [tokensOfF, hvoid, List.append_assoc]
    · have hshape : serF (.elemC t a ch rest) ++ b =
          '<' :: (t ++ (serAttrs a ++ ('>' :: (serF ch ++
            ('<' :: '/' :: (t ++ ('>' :: (serF rest ++ b)))))))) := by
        simp [serF, hvoid, List.append_assoc]
      rw [hshape, runT_data_serOpen t a _ ht ha1 ha2, ihch hch _,
        runT_data_serClose t _ ht, ihr hr b]
      simp [tokensOfF, hvoid, List.append_assoc]

-- ============================================================
-- Tree-builder round trip: building the token stream of a forest
-- reconstructs its normalization
-- ============================================================

/-- Forest concatenation of sibling chains. -/
def appendF : HForest → HForest → HForest
  | .nil, y => y
  | .textC s r, y => .textC s (appendF r y)
  | .elemC t a ch r, y => .elemC t a ch (appendF r y)

/-- Is the first sibling a text node? -/
def isTextHead : HForest → Bool
  | .textC _ _ => true
  | _ => false

/-- No two adjacent sibling text nodes (at the top level). -/
def noAdjText : HForest → Bool
  | .nil => true
  | .textC _ r => !isTextHead r && noAdjText r
  | .elemC _ _ _ r => noAdjText r

/-- Reverse a sibling chain onto `acc`, merging texts at the boundary. -/
def revMerge : HForest → HForest → HForest
  | .nil, acc => acc
  | .textC s r, acc => revMerge r (pushTextRev s acc)
  | .elemC t a ch r, acc => revMerge r (.elemC t a ch acc)

/-- Push a whole forest onto a reversed accumulator the way the tree builder
does token by token: texts merge, element children are built recursively. -/
def pushForest : HForest → HForest → HForest
  | .nil, acc => acc
  | .textC s rest, acc => pushForest rest (pushTextRev s acc)
  | .elemC t a ch rest, acc =>
    pushForest rest (.elemC t a (revF (pushForest ch .nil) .nil) acc)

lemma pushTextRev_append (s1 s2 : List Char) (acc : HForest) :
    pushTextRev s2 (pushTextRev s1 acc) = pushTextRev (s1 ++ s2) acc := by
  cases acc with
  | nil => rfl
  | textC s0 r =>
    show HForest.textC (s0 ++ s1 ++ s2) r = HForest.textC (s0 ++ (s1 ++ s2)) r
    rw [List.append_assoc]
  | elemC t a ch r => rfl

lemma appendF_nil : ∀ (x : HForest), appendF x .nil = x := by
  intro x
  induction x with
  | nil => rfl
  | textC s r ih => simp [appendF, ih]
  | elemC t a ch r ihch ihr => simp [appendF, ihr]

lemma revF_revF_aux : ∀ (x acc y : HForest), revF (revF x acc) y = revF acc (appendF x y) := by
  intro x
  induction x with
  | nil => intro acc y; rfl
  | textC s r ih =>
    intro acc y
    show revF (revF r (.textC s acc)) y = _
    rw [ih]
    rfl
  | elemC t a ch r ihch ihr =>
    intro acc y
    show revF (revF r (.elemC t a ch acc)) y = _
    rw [ihr]
    rfl

lemma revF_revF (x : HForest) : revF (revF x .nil) .nil = x := by
  rw [revF_revF_aux]
  show appendF x .nil = x
  exact appendF_nil x

lemma noAdjText_normF : ∀ (f : HForest), noAdjText (normF f) = true := by
  intro f
  induction f with
  | nil => rfl
  | textC s rest ihr =>
    cases hm : normF rest with
    | nil => simp [normF, hm, noAdjText, isTextHead]
    | textC s2 r2 =>
      rw [hm] at ihr
      simp only [noAdjText, Bool.and_eq_true] at ihr
      simp [normF, hm, noAdjText, ihr.1, ihr.2]
    | elemC t a ch r2 =>
      rw [hm] at ihr
      simp only [noAdjText] at ihr
      simp [normF, hm, noAdjText, isTextHead, ihr]
  | elemC t a ch rest ihch ihr => simp [normF, noAdjText, ihr]

lemma revMerge_eq_revF : ∀ (x : HForest), noAdjText x = true →
    ∀ (acc : HForest), (isTextHead x && isTextHead acc) = false →
    revMerge x acc = revF x acc := by
  intro x
  induction x with
  | nil => intro _ acc _; rfl
  | textC s r ih =>
    intro h acc hc
    simp only [noAdjText, Bool.and_eq_true] at h
    have hacc : isTextHead acc = false := by
      have hx : isTextHead (HForest.textC s r) = true := rfl
      rw [hx, Bool.true_and] at hc
      exact hc
    have hr : isTextHead r = false := by
      have := h.1
      rwa [Bool.not_eq_true'] at this
    have hpt : pushTextRev s acc = .textC s acc := by
      cases acc with
      | nil => rfl
      | textC s0 r0 => simp [isTextHead] at hacc
      | elemC _ _ _ _ => rfl
    show revMerge r (pushTextRev s acc) = revF r (.textC s acc)
    rw [hpt]
    exact ih h.2 _ (by rw [hr]; rfl)
  | elemC t a ch r ihch ihr =>
    intro h acc hc
    show revMerge r (.elemC t a ch acc) = revF r (.elemC t a ch acc)
    exact ihr h _ (by simp [isTextHead])

lemma pushForest_eq_revMerge : ∀ (f acc : HForest), pushForest f acc = revMerge (normF f) acc := by
  intro f
  induction f with
  | nil => intro acc; rfl
  | textC s rest ihr =>
    intro acc
    show pushForest rest (pushTextRev s acc) = revMerge (normF (.textC s rest)) acc
    rw [ihr]
    cases hm : normF rest with
    | nil => simp [normF, hm, revMerge]
    | textC s2 r2 =>
      simp only [normF, hm]
      show revMerge r2 (pushTextRev s2 (pushTextRev s acc)) =
        revMerge r2 (pushTextRev (s ++ s2) acc)
      rw [pushTextRev_append]
    | elemC t2 a2 ch2 r2 => simp [normF, hm, revMerge]
  | elemC t a ch rest ihch ihr =>
    intro acc
    show pushForest rest (.elemC t a (revF (pushForest ch .nil) .nil) acc) = _
    rw [ihr, ihch]
    have hch : revMerge (normF ch) .nil = revF (normF ch) .nil :=
      revMerge_eq_revF (normF ch) (noAdjText_normF ch) .nil
        (by rw [show isTextHead HForest.nil = false from rfl, Bool.and_false])
    rw [hch, revF_revF]
    rfl

lemma void_child_nil {t : List Char} {ch : HForest}
    (hv : (!isVoidTag t || isNilF ch) = true) (hvoid : isVoidTag t = true) :
    ch = .nil := by
  rcases Bool.or_eq_true _ _ |>.mp hv with hx | hx
  · rw [Bool.not_eq_true'] at hx
    rw [hx] at hvoid
    cases hvoid
  · cases ch with
    | nil => rfl
    | textC _ _ => simp [isNilF] at hx
    | elemC _ _ _ _ => simp [isNilF] at hx

lemma foldl_charToks : ∀ (s : List Char), s ≠ [] → ∀ (g : BFrame) (gs : List BFrame),
    (charToks s).foldl applyTok (g :: gs) =
      { g with rev := pushTextRev s g.rev } :: gs := by
  intro s
  induction s with
  | nil => intro h; exact absurd rfl h
  | cons c cs ih =>
    intro _ g gs
    cases cs with
    | nil => rfl
    | cons d ds =>
      show List.foldl applyTok
          ({ g with rev := pushTextRev [c] g.rev } :: gs) (charToks (d :: ds)) = _
      rw [ih (by simp)]
      rw [pushTextRev_append]
      rfl

lemma applyClose_top (t : List Char) (a : List HAttr) (r : HForest)
    (parent : BFrame) (rest : List BFrame) :
    applyClose t ((⟨t, a, r⟩ : BFrame) :: parent :: rest) =
      mergeInto ⟨t, a, r⟩ parent :: rest := by
  have htag : hasTag t ((⟨t, a, r⟩ : BFrame) :: parent :: rest) = true := by
    simp [hasTag]
  simp [applyClose, htag, List.dropWhile_cons, List.takeWhile_cons]

lemma foldl_tokensOfF : ∀ (f : HForest), wfF f = true → ∀ (g : BFrame) (gs : List BFrame),
    (tokensOfF f).foldl applyTok (g :: gs) =
      { g with rev := pushForest f g.rev } :: gs := by
  intro f
  induction f with
  | nil => intro _ g gs; rfl
  | textC s rest ihr =>
    intro h g gs
    simp only [wfF, Bool.and_eq_true] at h
    have hs : s ≠ [] := by
      have h1 := h.1
      rw [Bool.not_eq_true'] at h1
      cases s with
      | nil => simp at h1
      | cons _ _ => simp
    show ((charToks s ++ tokensOfF rest).foldl applyTok (g :: gs)) = _
    rw [List.foldl_append, foldl_charToks s hs, ihr h.2]
    rfl
  | elemC t a ch rest ihch ihr =>
    intro h g gs
    simp only [wfF, Bool.and_eq_true] at h
    obtain ⟨⟨⟨⟨ht, ha⟩, hv⟩, hch⟩, hr⟩ := h
    by_cases hvoid : isVoidTag t = true
    · have hchnil := void_child_nil hv hvoid
      subst hchnil
      have htoks : tokensOfF (.elemC t a .nil rest) = Tok.tagO t a :: tokensOfF rest := by
        simp [tokensOfF, hvoid]
      rw [htoks]
      show List.foldl applyTok (applyTok (g :: gs) (Tok.tagO t a)) (tokensOfF rest) = _
      have hstep : applyTok (g :: gs) (Tok.tagO t a) =
          { g with rev := .elemC t a .nil g.rev } :: gs := by
        simp [applyTok, hvoid]
      rw [hstep, ihr hr]
      rfl
    · have htoks : tokensOfF (.elemC t a ch rest) =
          Tok.tagO t a :: ((tokensOfF ch ++ [Tok.tagC t]) ++ tokensOfF rest) := by
        simp [tokensOfF, hvoid]
      rw [htoks]
      show List.foldl applyTok (applyTok (g :: gs) (Tok.tagO t a))
          ((tokensOfF ch ++ [Tok.tagC t]) ++ tokensOfF rest) = _
      have hstep : applyTok (g :: gs) (Tok.tagO t a) =
          (⟨t, a, .nil⟩ : BFrame) :: g :: gs := by
        simp [applyTok, hvoid]
      rw [hstep, List.foldl_append, List.foldl_append]
      have h1 : List.foldl applyTok ((⟨t, a, HForest.nil⟩ : BFrame) :: g :: gs)
          (tokensOfF ch) = (⟨t, a, pushForest ch HForest.nil⟩ : BFrame) :: g :: gs := by
        rw [ihch hch]
      rw [h1]
      have h2 : List.foldl applyTok
          ((⟨t, a, pushForest ch HForest.nil⟩ : BFrame) :: g :: gs) [Tok.tagC t] =
          mergeInto ⟨t, a, pushForest ch HForest.nil⟩ g :: gs :=
        applyClose_top t a _ g gs
      rw [h2, ihr hr]
      rfl

lemma buildToks_tokensOfF {f : HForest} (h : wfF f = true) :
    buildToks (tokensOfF f) = revF (pushForest f .nil) .nil := by
  show finishFrames ((tokensOfF f).foldl applyTok [rootFrame]) = _
  rw [foldl_tokensOfF f h rootFrame []]
  rfl

/-- Round trip: reparsing the serialization of a well-formed forest yields the
forest with adjacent text siblings merged. -/
lemma parse_serF {f : HForest} (h : wfF f = true) :
    parseHTMLList (serF f) = normF f := by
  show buildToks (runT .data (serF f)).1 = normF f
  have h0 := runT_data_serF f h []
  rw [List.append_nil] at h0
  rw [h0]
  show buildToks (tokensOfF f ++ (runT TState.data []).1) = normF f
  rw [show (runT TState.data ([] : List Char)).1 = [] from rfl, List.append_nil]
  rw [buildToks_tokensOfF h, pushForest_eq_revMerge,
    revMerge_eq_revF (normF f) (noAdjText_normF f) _
      (by rw [show isTextHead HForest.nil = false from rfl, Bool.and_false]),
    revF_revF]

-- ============================================================
-- Parser-output well-formedness: every forest the parser builds is `wfF`
-- ============================================================

/-- Well-formed tokens: every token the tokenizer can emit. -/
def wfTok : Tok → Bool
  | .chr _ => true
  | .tagO t a => wfTag t && wfAttrs a
  | .tagC t => !t.isEmpty

/-- Tokenizer-state invariant: name accumulators are always well formed. -/
def wfState : TState → Bool
  | .data => true
  | .charref _ => true
  | .tagOpen => true
  | .endTag _ => true
  | .tagName t => wfTag t
  | .beforeAttr t attrs => wfTag t && wfAttrs attrs
  | .attrName t attrs n => wfTag t && wfAttrs attrs && wfAttrName n
  | .afterAttrName t attrs n => wfTag t && wfAttrs attrs && wfAttrName n
  | .beforeValue t attrs n => wfTag t && wfAttrs attrs && wfAttrName n
  | .valueDq t attrs n _ => wfTag t && wfAttrs attrs && wfAttrName n
  | .valueSq t attrs n _ => wfTag t && wfAttrs attrs && wfAttrName n
  | .valueUnq t attrs n _ => wfTag t && wfAttrs attrs && wfAttrName n
  | .attrRef t attrs n _ _ => wfTag t && wfAttrs attrs && wfAttrName n

lemma wfTok_charToks (l : List Char) : ∀ tok ∈ charToks l, wfTok tok = true := by
  intro tok htok
  simp only [charToks, List.mem_map] at htok
  obtain ⟨c, _, rfl⟩ := htok
  rfl

lemma attrNamesNodup_push {n : List Char} (v : List Char) :
    ∀ (attrs : List HAttr), attrNamesNodup attrs = true →
      attrs.any (fun a => a.1 == n) = false →
      attrNamesNodup (attrs ++ [(n, v)]) = true := by
  intro attrs
  induction attrs with
  | nil => intro _ _; rfl
  | cons p rest ih =>
    obtain ⟨m, w⟩ := p
    intro hnd hany
    simp only [attrNamesNodup, Bool.and_eq_true, Bool.not_eq_true'] at hnd
    simp only [List.any_cons, Bool.or_eq_false_iff] at hany
    simp only [List.cons_append, attrNamesNodup, Bool.and_eq_true, Bool.not_eq_true']
    refine ⟨?_, ih hnd.2 hany.2⟩
    show ((rest ++ [(n, v)]).any fun a => a.1 == m) = false
    rw [List.any_append, hnd.1]
    simp only [List.any_cons, List.any_nil, Bool.or_false, Bool.false_or]
    rw [beq_names_comm]
    exact hany.1

lemma wfAttrs_pushAttr {attrs : List HAttr} {n : List Char} (v : List Char)
    (ha : wfAttrs attrs = true) (hn : wfAttrName n = true) :
    wfAttrs (pushAttr attrs n v) = true := by
  unfold pushAttr
  by_cases hd : attrs.any (fun a => a.1 == n) = true
  · simp [hd, ha]
  · rw [Bool.not_eq_true] at hd
    rw [hd]
    simp only [Bool.false_eq_true, if_false]
    simp only [wfAttrs, Bool.and_eq_true] at ha ⊢
    refine ⟨?_, attrNamesNodup_push v attrs ha.2 hd⟩
    rw [List.all_append, ha.1]
    simp [hn]

lemma wfTag_append_char {t : List Char} {d : Char} (ht : wfTag t = true)
    (hd : tagCharOk d = true) : wfTag (t ++ [d]) = true := by
  cases t with
  | nil => simp [wfTag] at ht
  | cons c rest =>
    simp only [wfTag, Bool.and_eq_true, List.all_eq_true] at ht
    simp only [List.cons_append, wfTag, Bool.and_eq_true, List.all_eq_true]
    refine ⟨ht.1, fun x hx => ?_⟩
    simp only [List.mem_cons, List.mem_append, List.mem_singleton,
      List.not_mem_nil, or_false] at hx
    rcases hx with h1 | h1 | h1
    · subst h1
      exact ht.2 x (by simp)
    · exact ht.2 x (by simp [h1])
    · subst h1
      exact hd

lemma wfAttrName_append_char {t : List Char} {d : Char} (ht : wfAttrName t = true)
    (hd : tagCharOk d = true) (hne : d ≠ '=') : wfAttrName (t ++ [d]) = true := by
  cases t with
  | nil => simp [wfAttrName] at ht
  | cons c rest =>
    simp only [wfAttrName, Bool.and_eq_true, List.all_eq_true] at ht
    simp only [List.cons_append, wfAttrName, Bool.and_eq_true, List.all_eq_true]
    refine ⟨ht.1, fun x hx => ?_⟩
    simp only [List.mem_cons, List.mem_append, List.mem_singleton,
      List.not_mem_nil, or_false] at hx
    rcases hx with h1 | h1
    · exact ht.2 x h1
    · subst h1
      simp [hd, hne]

lemma wfAttrs_nil : wfAttrs [] = true := rfl

lemma wfState_step {s : TState} (h : wfState s = true) (c : Char) :
    wfState (step s c).1 = true ∧ ∀ tok ∈ (step s c).2, wfTok tok = true := by
  cases s with
  | data =>
    by_cases h1 : c = '<'
    · have hstep : step .data c = (.tagOpen, []) := by
        simp only [step]; rw [if_pos h1]
      rw [hstep]
      exact ⟨rfl, by intro tok htok; simp at htok⟩
    by_cases h2 : c = '&'
    · have hstep : step .data c = (.charref [], []) := by
        simp only [step]; rw [if_neg h1, if_pos h2]
      rw [hstep]
      exact ⟨rfl, by intro tok htok; simp at htok⟩
    · have hstep : step .data c = (.data, [.chr c]) := by
        simp only [step]; rw [if_neg h1, if_neg h2]
      rw [hstep]
      refine ⟨rfl, ?_⟩
      intro tok htok
      simp only [List.mem_singleton] at htok
      subst htok
      rfl
  | charref acc =>
    by_cases h1 : c = ';'
    · cases hde : decodeEnt acc with
      | some d =>
        have hstep : step (.charref acc) c = (.data, [.chr d]) := by
          simp only [step]; rw [if_pos h1, hde]
        rw [hstep]
        refine ⟨rfl, ?_⟩
        intro tok htok
        simp only [List.mem_singleton] at htok
        subst htok
        rfl
      | none =>
        have hstep : step (.charref acc) c =
            (.data, charToks ('&' :: acc ++ [';'])) := by
          simp only [step]; rw [if_pos h1, hde]
        rw [hstep]
        exact ⟨rfl, wfTok_charToks _⟩
    by_cases h2 : (c.isAlphanum || c = '#') = true
    · have hstep : step (.charref acc) c = (.charref (acc ++ [c]), []) := by
        simp only [step]; rw [if_neg h1, if_pos h2]
      rw [hstep]
      exact ⟨rfl, by intro tok htok; simp at htok⟩
    by_cases h3 : c = '&'
    · have hstep : step (.charref acc) c = (.charref [], charToks ('&' :: acc)) := by
        simp only [step]; rw [if_neg h1, if_neg h2, if_pos h3]
      rw [hstep]
      exact ⟨rfl, wfTok_charToks _⟩
    by_cases h4 : c = '<'
    · have hstep : step (.charref acc) c = (.tagOpen, charToks ('&' :: acc)) := by
        simp only [step]; rw [if_neg h1, if_neg h2, if_neg h3, if_pos h4]
      rw [hstep]
      exact ⟨rfl, wfTok_charToks _⟩
    · have hstep : step (.charref acc) c =
          (.data, charToks ('&' :: acc) ++ [.chr c]) := by
        simp only [step]; rw [if_neg h1, if_neg h2, if_neg h3, if_neg h4]
      rw [hstep]
      refine ⟨rfl, ?_⟩
      intro tok htok
      rcases List.mem_append.mp htok with hh | hh
      · exact wfTok_charToks _ tok hh
      · simp only [List.mem_singleton] at hh
        subst hh
        rfl
  | tagOpen =>
    by_cases h1 : c = '/'
    · have hstep : step .tagOpen c = (.endTag [], []) := by
        simp only [step]; rw [if_pos h1]
      rw [hstep]
      exact ⟨rfl, by intro tok htok; simp at htok⟩
    by_cases h2 : c.isAlpha = true
    · have hstep : step .tagOpen c = (.tagName [lowerChar c], []) := by
        simp only [step]; rw [if_neg h1, if_pos h2]
      rw [hstep]
      obtain ⟨hA, hT⟩ := lowerChar_alpha_tagCharOk h2
      refine ⟨?_, by intro tok htok; simp at htok⟩
      simp [wfState, wfTag, hA, hT]
    by_cases h3 : c = '<'
    · have hstep : step .tagOpen c = (.tagOpen, [.chr '<']) := by
        simp only [step]; rw [if_neg h1, if_neg h2, if_pos h3]
      rw [hstep]
      refine ⟨rfl, ?_⟩
      intro tok htok
      simp only [List.mem_singleton] at htok
      subst htok
      rfl
    by_cases h4 : c = '&'
    · have hstep : step .tagOpen c = (.charref [], [.chr '<']) := by
        simp only [step]; rw [if_neg h1, if_neg h2, if_neg h3, if_pos h4]
      rw [hstep]
      refine ⟨rfl, ?_⟩
      intro tok htok
      simp only [List.mem_singleton] at htok
      subst htok
      rfl
    · have hstep : step .tagOpen c = (.data, [.chr '<', .chr c]) := by
        simp only [step]; rw [if_neg h1, if_neg h2, if_neg h3, if_neg h4]
      rw [hstep]
      refine ⟨rfl, ?_⟩
      intro tok htok
      simp only [List.mem_cons, List.mem_singleton, List.not_mem_nil, or_false] at htok
      rcases htok with h5 | h5 <;> (subst h5; rfl)
  | endTag acc =>
    by_cases h1 : c = '>'
    · have hstep : step (.endTag acc) c =
          (.data, if acc.isEmpty then [] else [.tagC acc]) := by
        simp only [step]; rw [if_pos h1]
      rw [hstep]
      refine ⟨rfl, ?_⟩
      intro tok htok
      by_cases he : acc.isEmpty = true
      · rw [if_pos he] at htok
        simp at htok
      · rw [if_neg he] at htok
        simp only [List.mem_singleton] at htok
        subst htok
        rw [Bool.not_eq_true] at he
        simp [wfTok, he]
    · have hstep : step (.endTag acc) c = (.endTag (acc ++ [lowerChar c]), []) := by
        simp only [step]; rw [if_neg h1]
      rw [hstep]
      exact ⟨rfl, by intro tok htok; simp at htok⟩
  | tagName t =>
    simp only [wfState] at h
    by_cases h1 : isHtmlWs c = true
    · have hstep : step (.tagName t) c = (.beforeAttr t [], []) := by
        simp only [step]; rw [if_pos h1]
      rw [hstep]
      exact ⟨by simp [wfState, h, wfAttrs_nil], by intro tok htok; simp at htok⟩
    by_cases h2 : c = '/'
    · have hstep : step (.tagName t) c = (.beforeAttr t [], []) := by
        simp only [step]; rw [if_neg h1, if_pos h2]
      rw [hstep]
      exact ⟨by simp [wfState, h, wfAttrs_nil], by intro tok htok; simp at htok⟩
    by_cases h3 : c = '>'
    · have hstep : step (.tagName t) c = (.data, [.tagO t []]) := by
        simp only [step]; rw [if_neg h1, if_neg h2, if_pos h3]
      rw [hstep]
      refine ⟨rfl, ?_⟩
      intro tok htok
      simp only [List.mem_singleton] at htok
      subst htok
      simp [wfTok, h, wfAttrs_nil]
    · have hstep : step (.tagName t) c = (.tagName (t ++ [lowerChar c]), []) := by
        simp only [step]; rw [if_neg h1, if_neg h2, if_neg h3]
      rw [hstep]
      have hc := tagCharOk_lowerChar (by rwa [Bool.not_eq_true] at h1) h2 h3
      exact ⟨by simp [wfState, wfTag_append_char h hc],
        by intro tok htok; simp at htok⟩
  | beforeAttr t attrs =>
    simp only [wfState, Bool.and_eq_true] at h
    obtain ⟨ht, ha⟩ := h
    by_cases h1 : (isHtmlWs c || c = '/') = true
    · have hstep : step (.beforeAttr t attrs) c = (.beforeAttr t attrs, []) := by
        simp only [step]; rw [if_pos h1]
      rw [hstep]
      exact ⟨by simp [wfState, ht, ha], by intro tok htok; simp at htok⟩
    by_cases h2 : c = '>'
    · have hstep : step (.beforeAttr t attrs) c = (.data, [.tagO t attrs]) := by
        simp only [step]; rw [if_neg h1, if_pos h2]
      rw [hstep]
      refine ⟨rfl, ?_⟩
      intro tok htok
      simp only [List.mem_singleton] at htok
      subst htok
      simp [wfTok, ht, ha]
    · have hstep : step (.beforeAttr t attrs) c =
          (.attrName t attrs [lowerChar c], []) := by
        simp only [step]; rw [if_neg h1, if_neg h2]
      rw [hstep]
      rw [Bool.not_eq_true, Bool.or_eq_false_iff] at h1
      have hsl : c ≠ '/' := by
        have := h1.2
        rwa [decide_eq_false_iff_not] at this
      have hc := tagCharOk_lowerChar h1.1 hsl h2
      exact ⟨by simp [wfState, ht, ha, wfAttrName, hc],
        by intro tok htok; simp at htok⟩
  | attrName t attrs n =>
    simp only [wfState, Bool.and_eq_true] at h
    obtain ⟨⟨ht, ha⟩, hn⟩ := h
    by_cases h1 : c = '='
    · have hstep : step (.attrName t attrs n) c = (.beforeValue t attrs n, []) := by
        simp only [step]; rw [if_pos h1]
      rw [hstep]
      exact ⟨by simp [wfState, ht, ha, hn], by intro tok htok; simp at htok⟩
    by_cases h2 : isHtmlWs c = true
    · have hstep : step (.attrName t attrs n) c = (.afterAttrName t attrs n, []) := by
        simp only [step]; rw [if_neg h1, if_pos h2]
      rw [hstep]
      exact ⟨by simp [wfState, ht, ha, hn], by intro tok htok; simp at htok⟩
    by_cases h3 : c = '>'
    · have hstep : step (.attrName t attrs n) c =
          (.data, [.tagO t (pushAttr attrs n [])]) := by
        simp only [step]; rw [if_neg h1, if_neg h2, if_pos h3]
      rw [hstep]
      refine ⟨rfl, ?_⟩
      intro tok htok
      simp only [List.mem_singleton] at htok
      subst htok
      simp [wfTok, ht, wfAttrs_pushAttr [] ha hn]
    by_cases h4 : c = '/'
    · have hstep : step (.attrName t attrs n) c =
          (.beforeAttr t (pushAttr attrs n []), []) := by
        simp only [step]; rw [if_neg h1, if_neg h2, if_neg h3, if_pos h4]
      rw [hstep]
      exact ⟨by simp [wfState, ht, wfAttrs_pushAttr [] ha hn],
        by intro tok htok; simp at htok⟩
    · have hstep : step (.attrName t attrs n) c =
          (.attrName t attrs (n ++ [lowerChar c]), []) := by
        simp only [step]; rw [if_neg h1, if_neg h2, if_neg h3, if_neg h4]
      rw [hstep]
      have hc := tagCharOk_lowerChar (by rwa [Bool.not_eq_true] at h2) h4 h3
      have hne := lowerChar_ne_eq h1
      exact ⟨by simp [wfState, ht, ha, wfAttrName_append_char hn hc hne],
        by intro tok htok; simp at htok⟩
  | afterAttrName t attrs n =>
    simp only [wfState, Bool.and_eq_true] at h
    obtain ⟨⟨ht, ha⟩, hn⟩ := h
    by_cases h1 : isHtmlWs c = true
    · have hstep : step (.afterAttrName t attrs n) c =
          (.afterAttrName t attrs n, []) := by
        simp only [step]; rw [if_pos h1]
      rw [hstep]
      exact ⟨by simp [wfState, ht, ha, hn], by intro tok htok; simp at htok⟩
    by_cases h2 : c = '='
    · have hstep : step (.afterAttrName t attrs n) c =
          (.beforeValue t attrs n, []) := by
        simp only [step]; rw [if_neg h1, if_pos h2]
      rw [hstep]
      exact ⟨by simp [wfState, ht, ha, hn], by intro tok htok; simp at htok⟩
    by_cases h3 : c = '>'
    · have hstep : step (.afterAttrName t attrs n) c =
          (.data, [.tagO t (pushAttr attrs n [])]) := by
        simp only [step]; rw [if_neg h1, if_neg h2, if_pos h3]
      rw [hstep]
      refine ⟨rfl, ?_⟩
      intro tok htok
      simp only [List.mem_singleton] at htok
      subst htok
      simp [wfTok, ht, wfAttrs_pushAttr [] ha hn]
    by_cases h4 : c = '/'
    · have hstep : step (.afterAttrName t attrs n) c =
          (.beforeAttr t (pushAttr attrs n []), []) := by
        simp only [step]; rw [if_neg h1, if_neg h2, if_neg h3, if_pos h4]
      rw [hstep]
      exact ⟨by simp [wfState, ht, wfAttrs_pushAttr [] ha hn],
        by intro tok htok; simp at htok⟩
    · have hstep : step (.afterAttrName t attrs n) c =
          (.attrName t (pushAttr attrs n []) [lowerChar c], []) := by
        simp only [step]; rw [if_neg h1, if_neg h2, if_neg h3, if_neg h4]
      rw [hstep]
      have hc := tagCharOk_lowerChar (by rwa [Bool.not_eq_true] at h1) h4 h3
      exact ⟨by simp [wfState, ht, wfAttrs_pushAttr [] ha hn, wfAttrName, hc],
        by intro tok htok; simp at htok⟩
  | beforeValue t attrs n =>
    simp only [wfState, Bool.and_eq_true] at h
    obtain ⟨⟨ht, ha⟩, hn⟩ := h
    by_cases h1 : isHtmlWs c = true
    · have hstep : step (.beforeValue t attrs n) c = (.beforeValue t attrs n, []) := by
        simp only [step]; rw [if_pos h1]
      rw [hstep]
      exact ⟨by simp [wfState, ht, ha, hn], by intro tok htok; simp at htok⟩
    by_cases h2 : c = '"'
    · have hstep : step (.beforeValue t attrs n) c = (.valueDq t attrs n [], []) := by
        simp only [step]; rw [if_neg h1, if_pos h2]
      rw [hstep]
      exact ⟨by simp [wfState, ht, ha, hn], by intro tok htok; simp at htok⟩
    by_cases h3 : c = '\''
    · have hstep : step (.beforeValue t attrs n) c = (.valueSq t attrs n [], []) := by
        simp only [step]; rw [if_neg h1, if_neg h2, if_pos h3]
      rw [hstep]
      exact ⟨by simp [wfState, ht, ha, hn], by intro tok htok; simp at htok⟩
    by_cases h4 : c = '>'
    · have hstep : step (.beforeValue t attrs n) c =
          (.data, [.tagO t (pushAttr attrs n [])]) := by
        simp only [step]; rw [if_neg h1, if_neg h2, if_neg h3, if_pos h4]
      rw [hstep]
      refine ⟨rfl, ?_⟩
      intro tok htok
      simp only [List.mem_singleton] at htok
      subst htok
      simp [wfTok, ht, wfAttrs_pushAttr [] ha hn]
    · have hstep : step (.beforeValue t attrs n) c =
          (.valueUnq t attrs n [c], []) := by
        simp only [step]; rw [if_neg h1, if_neg h2, if_neg h3, if_neg h4]
      rw [hstep]
      exact ⟨by simp [wfState, ht, ha, hn], by intro tok htok; simp at htok⟩
  | valueDq t attrs n v =>
    simp only [wfState, Bool.and_eq_true] at h
    obtain ⟨⟨ht, ha⟩, hn⟩ := h
    by_cases h1 : c = '"'
    · have hstep : step (.valueDq t attrs n v) c =
          (.beforeAttr t (pushAttr attrs n v), []) := by
        simp only [step]; rw [if_pos h1]
      rw [hstep]
      exact ⟨by simp [wfState, ht, wfAttrs_pushAttr v ha hn],
        by intro tok htok; simp at htok⟩
    by_cases h2 : c = '&'
    · have hstep : step (.valueDq t attrs n v) c =
          (.attrRef t attrs n v [], []) := by
        simp only [step]; rw [if_neg h1, if_pos h2]
      rw [hstep]
      exact ⟨by simp [wfState, ht, ha, hn], by intro tok htok; simp at htok⟩
    · have hstep : step (.valueDq t attrs n v) c =
          (.valueDq t attrs n (v ++ [c]), []) := by
        simp only [step]; rw [if_neg h1, if_neg h2]
      rw [hstep]
      exact ⟨by simp [wfState, ht, ha, hn], by intro tok htok; simp at htok⟩
  | valueSq t attrs n v =>
    simp only [wfState, Bool.and_eq_true] at h
    obtain ⟨⟨ht, ha⟩, hn⟩ := h
    by_cases h1 : c = '\''
    · have hstep : step (.valueSq t attrs n v) c =
          (.beforeAttr t (pushAttr attrs n v), []) := by
        simp only [step]; rw [if_pos h1]
      rw [hstep]
      exact ⟨by simp [wfState, ht, wfAttrs_pushAttr v ha hn],
        by intro tok htok; simp at htok⟩
    · have hstep : step (.valueSq t attrs n v) c =
          (.valueSq t attrs n (v ++ [c]), []) := by
        simp only [step]; rw [if_neg h1]
      rw [hstep]
      exact ⟨by simp [wfState, ht, ha, hn], by intro tok htok; simp at htok⟩
  | valueUnq t attrs n v =>
    simp only [wfState, Bool.and_eq_true] at h
    obtain ⟨⟨ht, ha⟩, hn⟩ := h
    by_cases h1 : isHtmlWs c = true
    · have hstep : step (.valueUnq t attrs n v) c =
          (.beforeAttr t (pushAttr attrs n v), []) := by
        simp only [step]; rw [if_pos h1]
      rw [hstep]
      exact ⟨by simp [wfState, ht, wfAttrs_pushAttr v ha hn],
        by intro tok htok; simp at htok⟩
    by_cases h2 : c = '>'
    · have hstep : step (.valueUnq t attrs n v) c =
          (.data, [.tagO t (pushAttr attrs n v)]) := by
        simp only [step]; rw [if_neg h1, if_pos h2]
      rw [hstep]
      refine ⟨rfl, ?_⟩
      intro tok htok
      simp only [List.mem_singleton] at htok
      subst htok
      simp [wfTok, ht, wfAttrs_pushAttr v ha hn]
    · have hstep : step (.valueUnq t attrs n v) c =
          (.valueUnq t attrs n (v ++ [c]), []) := by
        simp only [step]; rw [if_neg h1, if_neg h2]
      rw [hstep]
      exact ⟨by simp [wfState, ht, ha, hn], by intro tok htok; simp at htok⟩
  | attrRef t attrs n v acc =>
    simp only [wfState, Bool.and_eq_true] at h
    obtain ⟨⟨ht, ha⟩, hn⟩ := h
    by_cases h1 : c = ';'
    · cases hde : decodeEnt acc with
      | some d =>
        have hstep : step (.attrRef t attrs n v acc) c =
            (.valueDq t attrs n (v ++ [d]), []) := by
          simp only [step]; rw [if_pos h1, hde]
        rw [hstep]
        exact ⟨by simp [wfState, ht, ha, hn], by intro tok htok; simp at htok⟩
      | none =>
        have hstep : step (.attrRef t attrs n v acc) c =
            (.valueDq t attrs n (v ++ '&' :: acc ++ [';']), []) := by
          simp only [step]; rw [if_pos h1, hde]
        rw [hstep]
        exact ⟨by simp [wfState, ht, ha, hn], by intro tok htok; simp at htok⟩
    by_cases h2 : (c.isAlphanum || c = '#') = true
    · have hstep : step (.attrRef t attrs n v acc) c =
          (.attrRef t attrs n v (acc ++ [c]), []) := by
        simp only [step]; rw [if_neg h1, if_pos h2]
      rw [hstep]
      exact ⟨by simp [wfState, ht, ha, hn], by intro tok htok; simp at htok⟩
    by_cases h3 : c = '"'
    · have hstep : step (.attrRef t attrs n v acc) c =
          (.beforeAttr t (pushAttr attrs n (v ++ '&' :: acc)), []) := by
        simp only [step]; rw [if_neg h1, if_neg h2, if_pos h3]
      rw [hstep]
      exact ⟨by simp [wfState, ht, wfAttrs_pushAttr _ ha hn],
        by intro tok htok; simp at htok⟩
    by_cases h4 : c = '&'
    · have hstep : step (.attrRef t attrs n v acc) c =
          (.attrRef t attrs n (v ++ '&' :: acc) [], []) := by
        simp only [step]; rw [if_neg h1, if_neg h2, if_neg h3, if_pos h4]
      rw [hstep]
      exact ⟨by simp [wfState, ht, ha, hn], by intro tok htok; simp at htok⟩
    · have hstep : step (.attrRef t attrs n v acc) c =
          (.valueDq t attrs n (v ++ '&' :: acc ++ [c]), []) := by
        simp only [step]; rw [if_neg h1, if_neg h2, if_neg h3, if_neg h4]
      rw [hstep]
      exact ⟨by simp [wfState, ht, ha, hn], by intro tok htok; simp at htok⟩

/-- Every token the tokenizer emits from a well-formed state is well formed. -/
lemma runT_wf : ∀ (cs : List Char) (s : TState), wfState s = true →
    ∀ tok ∈ (runT s cs).1, wfTok tok = true := by
  intro cs
  induction cs with
  | nil => intro s _ tok htok; simp [runT] at htok
  | cons c cs ih =>
    intro s hs tok htok
    rw [runT_step_eq] at htok
    rcases List.mem_append.mp htok with h1 | h1
    · exact (wfState_step hs c).2 tok h1
    · exact ih _ (wfState_step hs c).1 tok h1

-- ------------------------------------------------------------
-- Tree-builder frame invariant
-- ------------------------------------------------------------

/-- A non-root open frame: well-formed non-void tag, well-formed attributes,
well-formed collected children. -/
def wfFrame1 (f : BFrame) : Bool :=
  wfTag f.tag && !isVoidTag f.tag && wfAttrs f.attrs && wfF f.rev

/-- The sentinel root frame: empty tag, well-formed contents. -/
def wfRootF (f : BFrame) : Bool :=
  f.tag.isEmpty && wfAttrs f.attrs && wfF f.rev

/-- Builder-stack invariant: a nonempty stack of well-formed open frames over
the root sentinel. -/
def wfFrames : List BFrame → Bool
  | [] => false
  | [f] => wfRootF f
  | f :: g :: fs => wfFrame1 f && wfFrames (g :: fs)

lemma wfF_revF : ∀ (x : HForest), wfF x = true → ∀ (acc : HForest), wfF acc = true →
    wfF (revF x acc) = true := by
  intro x
  induction x with
  | nil => intro _ acc hacc; exact hacc
  | textC s r ih =>
    intro hx acc hacc
    simp only [wfF, Bool.and_eq_true] at hx
    show wfF (revF r (.textC s acc)) = true
    exact ih hx.2 _ (by simp [wfF, hx.1, hacc])
  | elemC t a ch r ihch ihr =>
    intro hx acc hacc
    simp only [wfF, Bool.and_eq_true] at hx
    show wfF (revF r (.elemC t a ch acc)) = true
    refine ihr hx.2 _ ?_
    simp only [wfF, Bool.and_eq_true]
    exact ⟨⟨⟨⟨hx.1.1.1.1, hx.1.1.1.2⟩, hx.1.1.2⟩, hx.1.2⟩, hacc⟩

lemma wfF_pushTextRev {s : List Char} (hs : s.isEmpty = false) :
    ∀ {f : HForest}, wfF f = true → wfF (pushTextRev s f) = true := by
  intro f hf
  cases f with
  | nil => simp [pushTextRev, wfF, hs]
  | textC s0 r =>
    simp only [wfF, Bool.and_eq_true] at hf
    show wfF (.textC (s0 ++ s) r) = true
    simp only [wfF, Bool.and_eq_true]
    refine ⟨?_, hf.2⟩
    cases s0 with
    | nil => simp [hs]
    | cons _ _ => simp
  | elemC t a ch r =>
    show wfF (.textC s (.elemC t a ch r)) = true
    simp only [wfF, Bool.and_eq_true] at hf ⊢
    refine ⟨?_, hf⟩
    simp [hs]

lemma wfF_elemInto {f g : BFrame} (hf : wfFrame1 f = true) (hg : wfF g.rev = true) :
    wfF (.elemC f.tag f.attrs (revF f.rev .nil) g.rev) = true := by
  simp only [wfFrame1, Bool.and_eq_true] at hf
  simp only [wfF, Bool.and_eq_true]
  refine ⟨⟨⟨⟨hf.1.1.1, hf.1.2⟩, ?_⟩, wfF_revF _ hf.2 _ rfl⟩, hg⟩
  rw [hf.1.1.2]
  rfl

lemma wfFrame1_mergeInto {f g : BFrame} (hf : wfFrame1 f = true)
    (hg : wfFrame1 g = true) : wfFrame1 (mergeInto f g) = true := by
  simp only [wfFrame1, Bool.and_eq_true] at hg ⊢
  exact ⟨hg.1, wfF_elemInto hf hg.2⟩

lemma wfRootF_mergeInto {f g : BFrame} (hf : wfFrame1 f = true)
    (hg : wfRootF g = true) : wfRootF (mergeInto f g) = true := by
  simp only [wfRootF, Bool.and_eq_true] at hg ⊢
  exact ⟨hg.1, wfF_elemInto hf hg.2⟩

lemma wfFrame1_chainIntoAux : ∀ (pre : List BFrame) (acc m : BFrame),
    wfFrame1 acc = true → pre.all wfFrame1 = true → wfFrame1 m = true →
    wfFrame1 (chainIntoAux acc pre m) = true := by
  intro pre
  induction pre with
  | nil => intro acc m hacc _ hm; exact wfFrame1_mergeInto hacc hm
  | cons g rest ih =>
    intro acc m hacc hall hm
    simp only [List.all_cons, Bool.and_eq_true] at hall
    show wfFrame1 (chainIntoAux (mergeInto acc g) rest m) = true
    exact ih _ m (wfFrame1_mergeInto hacc hall.1) hall.2 hm

lemma wfFrames_mergeInto_head {acc g : BFrame} {fs : List BFrame}
    (hacc : wfFrame1 acc = true) (hg : wfFrames (g :: fs) = true) :
    wfFrames (mergeInto acc g :: fs) = true := by
  cases fs with
  | nil =>
    show wfRootF (mergeInto acc g) = true
    exact wfRootF_mergeInto hacc hg
  | cons x xs =>
    simp only [wfFrames, Bool.and_eq_true] at hg ⊢
    exact ⟨wfFrame1_mergeInto hacc hg.1, hg.2⟩

lemma wfFrames_append : ∀ (pre : List BFrame) (g : BFrame) (fs : List BFrame),
    wfFrames (pre ++ g :: fs) = (pre.all wfFrame1 && wfFrames (g :: fs)) := by
  intro pre
  induction pre with
  | nil => intro g fs; simp
  | cons f rest ih =>
    intro g fs
    show wfFrames (f :: (rest ++ g :: fs)) = _
    cases hr : rest ++ g :: fs with
    | nil => cases rest <;> simp at hr
    | cons x xs =>
      rw [show wfFrames (f :: x :: xs) = (wfFrame1 f && wfFrames (x :: xs)) from rfl]
      rw [← hr, ih]
      simp [Bool.and_assoc]

lemma wfFrames_applyClose (t : List Char) {frames : List BFrame}
    (h : wfFrames frames = true) : wfFrames (applyClose t frames) = true := by
  unfold applyClose
  by_cases hht : hasTag t frames = true
  · rw [if_pos hht]
    cases hdrop : frames.dropWhile (fun f => !(f.tag == t)) with
    | nil =>
      cases htake : frames.takeWhile (fun f => !(f.tag == t)) with
      | nil => exact h
      | cons f pre => exact h
    | cons m rest1 =>
      cases rest1 with
      | nil =>
        cases htake : frames.takeWhile (fun f => !(f.tag == t)) with
        | nil => exact h
        | cons f pre => exact h
      | cons parent rest2 =>
        cases htake : frames.takeWhile (fun f => !(f.tag == t)) with
        | nil =>
          have h0 := List.takeWhile_append_dropWhile (fun (f : BFrame) => !(f.tag == t)) frames
          rw [htake, hdrop] at h0
          simp only [List.nil_append] at h0
          rw [← h0] at h
          rw [show wfFrames (m :: parent :: rest2) =
            (wfFrame1 m && wfFrames (parent :: rest2)) from rfl,
            Bool.and_eq_true] at h
          exact wfFrames_mergeInto_head h.1 h.2
        | cons f pre =>
          have h0 := List.takeWhile_append_dropWhile (fun (f : BFrame) => !(f.tag == t)) frames
          rw [htake, hdrop] at h0
          rw [← h0] at h
          rw [wfFrames_append (f :: pre) m (parent :: rest2), Bool.and_eq_true] at h
          obtain ⟨hall, hrest⟩ := h
          rw [show wfFrames (m :: parent :: rest2) =
            (wfFrame1 m && wfFrames (parent :: rest2)) from rfl,
            Bool.and_eq_true] at hrest
          simp only [List.all_cons, Bool.and_eq_true] at hall
          have hM : wfFrame1 (chainIntoAux f pre m) = true :=
            wfFrame1_chainIntoAux pre f m hall.1 hall.2 hrest.1
          exact wfFrames_mergeInto_head hM hrest.2
  · rw [if_neg hht]
    exact h

lemma wfFrames_applyTok {frames : List BFrame} {tok : Tok}
    (h : wfFrames frames = true) (htok : wfTok tok = true) :
    wfFrames (applyTok frames tok) = true := by
  cases tok with
  | chr c =>
    cases frames with
    | nil => simp [wfFrames] at h
    | cons f fs =>
      show wfFrames ({ f with rev := pushTextRev [c] f.rev } :: fs) = true
      cases fs with
      | nil =>
        show wfRootF { f with rev := pushTextRev [c] f.rev } = true
        simp only [wfFrames, wfRootF, Bool.and_eq_true] at h ⊢
        exact ⟨h.1, wfF_pushTextRev (show ([c] : List Char).isEmpty = false from rfl) h.2⟩
      | cons g gs =>
        rw [show wfFrames (f :: g :: gs) = (wfFrame1 f && wfFrames (g :: gs)) from rfl,
          Bool.and_eq_true] at h
        show (wfFrame1 { f with rev := pushTextRev [c] f.rev } && wfFrames (g :: gs)) = true
        rw [Bool.and_eq_true]
        refine ⟨?_, h.2⟩
        have h1 := h.1
        simp only [wfFrame1, Bool.and_eq_true] at h1 ⊢
        exact ⟨h1.1, wfF_pushTextRev (show ([c] : List Char).isEmpty = false from rfl) h1.2⟩
  | tagO t a =>
    simp only [wfTok, Bool.and_eq_true] at htok
    by_cases hv : isVoidTag t = true
    · cases frames with
      | nil => simp [wfFrames] at h
      | cons f fs =>
        have hstep : applyTok (f :: fs) (Tok.tagO t a) =
            { f with rev := .elemC t a .nil f.rev } :: fs := by
          simp [applyTok, hv]
        rw [hstep]
        have helem : ∀ {rv : HForest}, wfF rv = true →
            wfF (.elemC t a .nil rv) = true := by
          intro rv hrv
          simp only [wfF, Bool.and_eq_true]
          exact ⟨⟨⟨⟨htok.1, htok.2⟩, by simp [isNilF]⟩, trivial⟩, hrv⟩
        cases fs with
        | nil =>
          show wfRootF { f with rev := .elemC t a .nil f.rev } = true
          simp only [wfFrames, wfRootF, Bool.and_eq_true] at h ⊢
          exact ⟨h.1, helem h.2⟩
        | cons g gs =>
          rw [show wfFrames (f :: g :: gs) = (wfFrame1 f && wfFrames (g :: gs)) from rfl,
            Bool.and_eq_true] at h
          show (wfFrame1 { f with rev := .elemC t a .nil f.rev } && wfFrames (g :: gs)) = true
          rw [Bool.and_eq_true]
          refine ⟨?_, h.2⟩
          have h1 := h.1
          simp only [wfFrame1, Bool.and_eq_true] at h1 ⊢
          exact ⟨h1.1, helem h1.2⟩
    · have hstep : applyTok frames (Tok.tagO t a) = (⟨t, a, .nil⟩ : BFrame) :: frames := by
        simp [applyTok, hv]
      rw [hstep]
      cases frames with
      | nil => simp [wfFrames] at h
      | cons g gs =>
        show (wfFrame1 ⟨t, a, .nil⟩ && wfFrames (g :: gs)) = true
        rw [Bool.and_eq_true]
        refine ⟨?_, h⟩
        simp only [wfFrame1, Bool.and_eq_true]
        rw [Bool.not_eq_true] at hv
        exact ⟨⟨⟨htok.1, by simp [hv]⟩, htok.2⟩, rfl⟩
  | tagC t => exact wfFrames_applyClose t h

lemma wfFrames_foldl : ∀ (toks : List Tok) (frames : List BFrame),
    wfFrames frames = true → (∀ tok ∈ toks, wfTok tok = true) →
    wfFrames (toks.foldl applyTok frames) = true := by
  intro toks
  induction toks with
  | nil => intro frames h _; exact h
  | cons tok rest ih =>
    intro frames h hall
    show wfFrames (rest.foldl applyTok (applyTok frames tok)) = true
    exact ih _ (wfFrames_applyTok h (hall tok (by simp)))
      (fun x hx => hall x (by simp [hx]))

lemma wfF_finishAux : ∀ (fs : List BFrame) (acc : BFrame),
    wfFrames (acc :: fs) = true → wfF (finishAux acc fs) = true := by
  intro fs
  induction fs with
  | nil =>
    intro acc h
    show wfF (revF acc.rev .nil) = true
    simp only [wfFrames, wfRootF, Bool.and_eq_true] at h
    exact wfF_revF _ h.2 _ rfl
  | cons g gs ih =>
    intro acc h
    rw [show wfFrames (acc :: g :: gs) = (wfFrame1 acc && wfFrames (g :: gs)) from rfl,
      Bool.and_eq_true] at h
    show wfF (finishAux (mergeInto acc g) gs) = true
    exact ih _ (wfFrames_mergeInto_head h.1 h.2)

/-- The host parser never builds an ill-formed forest, on any input. -/
lemma wfF_parseHTMLList (cs : List Char) : wfF (parseHTMLList cs) = true := by
  show wfF (finishFrames ((runT .data cs).1.foldl applyTok [rootFrame])) = true
  have hfr : wfFrames ((runT .data cs).1.foldl applyTok [rootFrame]) = true :=
    wfFrames_foldl _ _ rfl (runT_wf cs .data rfl)
  cases hres : (runT .data cs).1.foldl applyTok [rootFrame] with
  | nil => rw [hres] at hfr; simp [wfFrames] at hfr
  | cons f fs =>
    rw [hres] at hfr
    exact wfF_finishAux fs f hfr

-- ------------------------------------------------------------
-- Sanitizer idempotence and pipeline safety
-- ------------------------------------------------------------

lemma sanitizeHTML_serF {f : HForest} (hw : wfF f = true) (hs : safeF f = true) :
    Security.sanitizeHTML ⟨serF f⟩ = ⟨serF f⟩ := by
  show (⟨serF (sanF (parseHTMLList (String.mk (serF f)).data))⟩ : String) = _
  rw [show (String.mk (serF f)).data = serF f from rfl]
  rw [parse_serF hw, sanF_of_safeF (safeF_normF hs), serF_normF]

lemma sanitizeHTML_idem (x : String) :
    Security.sanitizeHTML (Security.sanitizeHTML x) = Security.sanitizeHTML x := by
  have hw : wfF (sanF (parseHTMLList x.data)) = true :=
    wfF_sanF (wfF_parseHTMLList x.data)
  have hs : safeF (sanF (parseHTMLList x.data)) = true := safeF_sanF _
  show Security.sanitizeHTML ⟨serF (sanF (parseHTMLList x.data))⟩ = _
  exact sanitizeHTML_serF hw hs

/-- C5: `sanitizeHTML` is idempotent — for every fragment `x`,
`sanitizeHTML (sanitizeHTML x) = sanitizeHTML x` — and it does not alter
benign markup: the serialization of any well-formed forest that is already
free of deny-listed elements and bad attributes (headings, lists, emphasis,
safe-scheme links, …) passes through unchanged. -/
theorem c5_sanitize_idempotent :
    (∀ x : String,
      Security.sanitizeHTML (Security.sanitizeHTML x) = Security.sanitizeHTML x) ∧
    (∀ f : HForest, wfF f = true → safeF f = true →
      Security.sanitizeHTML ⟨serF f⟩ = ⟨serF f⟩) :=
  ⟨sanitizeHTML_idem, fun _ hw hs => sanitizeHTML_serF hw hs⟩

/-- C5 witness: idempotence at a concrete fragment, and preservation of a
concrete benign element. -/
theorem c5_witness :
    (Security.sanitizeHTML (Security.sanitizeHTML "<em>hi</em>") =
      Security.sanitizeHTML "<em>hi</em>") ∧
    (wfF (HForest.elemC ('e' :: 'm' :: []) []
        (.textC ('h' :: 'i' :: []) .nil) .nil) = true ∧
     safeF (HForest.elemC ('e' :: 'm' :: []) []
        (.textC ('h' :: 'i' :: []) .nil) .nil) = true ∧
     Security.sanitizeHTML ⟨serF (HForest.elemC ('e' :: 'm' :: []) []
        (.textC ('h' :: 'i' :: []) .nil) .nil)⟩ =
       ⟨serF (HForest.elemC ('e' :: 'm' :: []) []
        (.textC ('h' :: 'i' :: []) .nil) .nil)⟩) :=
  ⟨c5_sanitize_idempotent.1 "<em>hi</em>", by decide, by decide,
    c5_sanitize_idempotent.2 _ (by decide) (by decide)⟩

/-- C1: for every input text, the final pipeline output
`render(text) = sanitizeHTML(parse(text))` reparses to a tree containing no
deny-listed element (script, style, iframe, object, embed, form, input,
button, link, meta) and no attribute whose name begins with `on`. -/
theorem c1_render_safe (text : String) :
    forestNoDenied (parseHTMLList (render text).data) = true ∧
    forestNoOn (parseHTMLList (render text).data) = true := by
  have hkey : parseHTMLList (render text).data =
      normF (sanF (parseHTMLList (Markdown.parse text).data)) := by
    show parseHTMLList (serF (sanF (parseHTMLList (Markdown.parse text).data))) = _
    exact parse_serF (wfF_sanF (wfF_parseHTMLList _))
  rw [hkey]
  have hs : safeF (normF (sanF (parseHTMLList (Markdown.parse text).data))) = true :=
    safeF_normF (safeF_sanF _)
  exact ⟨safeF_noDenied hs, safeF_noOn hs⟩
